import Mathlib

/-!
# Plosive remover: the per-sample detection and ducking core

A shallow embedding of `Source/PluginProcessor.h` and `Source/PluginProcessor.cpp`.

* `float` and `double` values are elements of a linearly ordered field `α`
  (exact arithmetic; `ℚ` makes every definition executable, `ℝ` carries the
  analytic statements);
* the `<cmath>` functions `cos`, `sin`, `exp`, `log10` and the constant `pi`
  are a parameter (`CMath`);
* `int` is `Int`, `%` on `int` is `Int.tmod` (C++ truncating remainder);
* `std::vector` is `List`; an access outside the vector (undefined in C++)
  reads `0` and a write outside the vector is dropped;
* the conversion `static_cast<int>` of a `double` is partial (`Option`): a value
  outside the range of `int` has no defined result;
* the flush-to-zero mode set by `juce::ScopedNoDenormals` is `flushDenormal`; it is
  applied to the output product in `processChannelFlushed`, the variant of
  `processChannel` used where the underflow of that product matters.
-/

namespace PlosiveRemover

/-- The `<cmath>` functions and `juce::MathConstants<float>::pi` used by the processor. -/
structure CMath (α : Type) where
  cos : α → α
  sin : α → α
  exp : α → α
  log10 : α → α
  pi : α

/-- The constant `MAX_LOOKAHEAD_SAMPLES` of `PluginProcessor.h`. -/
def MAX_LOOKAHEAD_SAMPLES : Int := 512

/-- The struct `BiquadFilter` of `PluginProcessor.h`: five coefficients and two state cells. -/
structure BiquadFilter (α : Type) [LinearOrderedField α] where
  b0 : α := 0
  b1 : α := 0
  b2 : α := 0
  a1 : α := 0
  a2 : α := 0
  z1 : α := 0
  z2 : α := 0

/-- The data members of `PlosiveRemoverProcessor`, together with the three pieces of
`juce::AudioProcessor` state the processing code reads or writes: the two channel
counts and the latency reported through `setLatencySamples`. -/
structure Processor (α : Type) [LinearOrderedField α] where
  threshold : α := 6
  reduction : α := 70
  frequency : α := 200
  meterGainReduction : α := 0
  meterInputLevel : α := 0
  meterDetectionLevel : α := 0
  currentSampleRate : α := 44100
  currentBlockSize : Int := 512
  delayBuffer : List (List α) := []
  delayWritePos : Int := 0
  lookaheadSamples : Int := 0
  detectionLPF : BiquadFilter α := {}
  duckingHPF : BiquadFilter α := {}
  channelHPF1 : List (BiquadFilter α) := []
  channelHPF2 : List (BiquadFilter α) := []
  fastEnvelope : α := 0
  slowEnvelope : α := 0
  fastAttack : α := 0
  fastRelease : α := 0
  slowAttack : α := 0
  slowRelease : α := 0
  avgLevel : α := 0
  avgLevelCoeff : α := 0
  currentGainReduction : α := 1
  targetGainReduction : α := 1
  gainSmoothCoeff : α := 0
  totalNumInputChannels : Nat := 2
  totalNumOutputChannels : Nat := 2
  latencySamples : Int := 0

/-- A `juce::AudioBuffer<float>`: `numSamples` and one list of samples per channel. -/
structure AudioBuffer (α : Type) where
  numSamples : Nat
  data : List (List α)

section Definitions

variable {α : Type} [LinearOrderedField α]

/-- Reading `v[static_cast<size_t>(i)]` for an `int` index `i`. -/
def vecRead (v : List α) (i : Int) : α :=
  if 0 ≤ i then v.getD i.toNat 0 else 0

/-- Writing `v[static_cast<size_t>(i)] = x` for an `int` index `i`. -/
def vecWrite (v : List α) (i : Int) (x : α) : List α :=
  if 0 ≤ i then v.set i.toNat x else v

/-- The call `v.resize(n, fill)` of `std::vector`: a longer vector is cut to `n`
elements, a shorter one is padded with `fill`; elements already present are kept. -/
def vectorResize {β : Type} (v : List β) (n : Nat) (fill : β) : List β :=
  if n ≤ v.length then v.take n else v ++ List.replicate (n - v.length) fill

/-- The conversion `static_cast<int>(x)` of a `double`: truncation toward zero, defined
only when the truncated value fits a 32-bit `int`. -/
def staticCastInt [FloorRing α] (x : α) : Option Int :=
  let t : Int := if 0 ≤ x then ⌊x⌋ else ⌈x⌉
  if -2147483648 ≤ t ∧ t ≤ 2147483647 then some t else none

/-- The sample `buffer.getReadPointer(channel)[sample]` (also `buffer.getSample`). -/
def AudioBuffer.getSample (buffer : AudioBuffer α) (channel sample : Nat) : α :=
  (buffer.data.getD channel []).getD sample 0

/-- The call `buffer.clear(channel, 0, buffer.getNumSamples())`. -/
def AudioBuffer.clear (buffer : AudioBuffer α) (channel : Nat) : AudioBuffer α :=
  { buffer with data := buffer.data.set channel (List.replicate buffer.numSamples 0) }

/-- The member `BiquadFilter::process`: the output and the filter with its shifted state. -/
def BiquadFilter.process (f : BiquadFilter α) (input : α) : α × BiquadFilter α :=
  let output := f.b0 * input + f.b1 * f.z1 + f.b2 * f.z2 - f.a1 * f.z1 - f.a2 * f.z2
  (output, { f with z2 := f.z1, z1 := output })

/-- The outputs of successive calls of `BiquadFilter::process` on a sequence of input
samples. -/
def BiquadFilter.run : BiquadFilter α → List α → List α
  | _, [] => []
  | f, input :: rest => (f.process input).1 :: BiquadFilter.run (f.process input).2 rest

/-- The member `BiquadFilter::reset`. -/
def BiquadFilter.reset (f : BiquadFilter α) : BiquadFilter α :=
  { f with z1 := 0, z2 := 0 }

/-- The function `calculateBiquadLPF` (the sample rate is the member `currentSampleRate`). -/
def calculateBiquadLPF (M : CMath α) (currentSampleRate : α) (filter : BiquadFilter α)
    (cutoffHz q : α) : BiquadFilter α :=
  let w0 := 2 * M.pi * cutoffHz / currentSampleRate
  let cosw0 := M.cos w0
  let sinw0 := M.sin w0
  let alpha := sinw0 / (2 * q)
  let a0 := 1 + alpha
  let b0 := ((1 - cosw0) / 2) / a0
  { filter with
    b0 := b0
    b1 := (1 - cosw0) / a0
    b2 := b0
    a1 := (-2 * cosw0) / a0
    a2 := (1 - alpha) / a0 }

/-- The function `calculateBiquadHPF`. -/
def calculateBiquadHPF (M : CMath α) (currentSampleRate : α) (filter : BiquadFilter α)
    (cutoffHz q : α) : BiquadFilter α :=
  let w0 := 2 * M.pi * cutoffHz / currentSampleRate
  let cosw0 := M.cos w0
  let sinw0 := M.sin w0
  let alpha := sinw0 / (2 * q)
  let a0 := 1 + alpha
  let b0 := ((1 + cosw0) / 2) / a0
  { filter with
    b0 := b0
    b1 := (-(1 + cosw0)) / a0
    b2 := b0
    a1 := (-2 * cosw0) / a0
    a2 := (1 - alpha) / a0 }

/-- The function `prepareToPlay`. -/
def prepareToPlay [FloorRing α] (M : CMath α) (st : Processor α) (sampleRate : α)
    (samplesPerBlock : Int) : Option (Processor α) :=
  match staticCastInt (sampleRate * 0.005) with
  | none => none
  | some n =>
    let lookaheadSamples := min n MAX_LOOKAHEAD_SAMPLES
    let numChannels := st.totalNumInputChannels
    let delayBuffer := (vectorResize st.delayBuffer numChannels []).map
      (fun channel => vectorResize channel MAX_LOOKAHEAD_SAMPLES.toNat 0)
    let channelHPF1 := (vectorResize st.channelHPF1 numChannels {}).map BiquadFilter.reset
    let channelHPF2 := (vectorResize st.channelHPF2 numChannels {}).map BiquadFilter.reset
    some { st with
      currentSampleRate := sampleRate
      currentBlockSize := samplesPerBlock
      lookaheadSamples := lookaheadSamples
      latencySamples := lookaheadSamples
      delayBuffer := delayBuffer
      delayWritePos := 0
      channelHPF1 := channelHPF1
      channelHPF2 := channelHPF2
      detectionLPF := calculateBiquadLPF M sampleRate st.detectionLPF.reset st.frequency 0.707
      fastEnvelope := 0
      slowEnvelope := 0
      fastAttack := 1 - M.exp (-1 / (sampleRate * 0.001))
      fastRelease := 1 - M.exp (-1 / (sampleRate * 0.030))
      slowAttack := 1 - M.exp (-1 / (sampleRate * 0.020))
      slowRelease := 1 - M.exp (-1 / (sampleRate * 0.100))
      gainSmoothCoeff := 1 - M.exp (-1 / (sampleRate * 0.003))
      avgLevelCoeff := 1 - M.exp (-1 / (sampleRate * 0.5))
      avgLevel := 0
      currentGainReduction := 1
      targetGainReduction := 1 }

/-- The function `releaseResources`. -/
def releaseResources (st : Processor α) : Processor α :=
  { st with delayBuffer := [], channelHPF1 := [], channelHPF2 := [] }

/-- One update of an envelope follower (`processBlock`, the fast and the slow envelope). -/
def envelopeUpdate (attack release envelope lowFreqAbs : α) : α :=
  if lowFreqAbs > envelope then envelope + attack * (lowFreqAbs - envelope)
  else envelope + release * (lowFreqAbs - envelope)

/-- One update of the average level: `avgLevel += avgLevelCoeff * (lowFreqAbs - avgLevel)`. -/
def avgLevelUpdate (avgLevelCoeff avgLevel lowFreqAbs : α) : α :=
  avgLevel + avgLevelCoeff * (lowFreqAbs - avgLevel)

/-- The conversion to dB of `processBlock`, with its floor of `-100`. -/
def toDb (M : CMath α) (x : α) : α :=
  if x > 0.00001 then 20 * M.log10 x else -100

/-- The trigger threshold `avgLevelDb + (24.0f - thresholdDb)` of `processBlock`. -/
def triggerThresholdDb (avgLevelDb thresholdDb : α) : α :=
  avgLevelDb + (24 - thresholdDb)

/-- The target gain of `processBlock`: `1` unless the trigger fires. -/
def targetGain (reductionAmount envelopeDb triggerDb : α) : α :=
  if envelopeDb > triggerDb ∧ envelopeDb > -40 then
    let excessDb := envelopeDb - triggerDb
    let ratio := min 1 (excessDb / 6)
    max 0.05 (1 - reductionAmount * ratio)
  else 1

/-- The gain smoother of `processBlock`: attack when the target is below the current
gain, release otherwise. -/
def smoothGainStep (gainSmoothCoeff target current : α) : α :=
  if target < current then current + gainSmoothCoeff * 2 * (target - current)
  else current + gainSmoothCoeff * 0.3 * (target - current)

/-- The blend of squared and linear gain applied to the delayed sample. -/
def blendGain (currentGainReduction : α) : α :=
  let smoothGain := currentGainReduction * currentGainReduction
  smoothGain * 0.5 + currentGainReduction * 0.5

/-- The detection half of one iteration of the sample loop of `processBlock`: from the
mono sum to the smoothed gain. -/
def detectSample (M : CMath α) (thresholdDb reductionAmount : α) (st : Processor α)
    (inputSum : α) : Processor α :=
  let r := st.detectionLPF.process inputSum
  let lowFreqContent := r.1
  let lowFreqAbs := |lowFreqContent|
  let fastEnvelope := envelopeUpdate st.fastAttack st.fastRelease st.fastEnvelope lowFreqAbs
  let slowEnvelope := envelopeUpdate st.slowAttack st.slowRelease st.slowEnvelope lowFreqAbs
  let avgLevel := avgLevelUpdate st.avgLevelCoeff st.avgLevel lowFreqAbs
  let envelopeDb := toDb M fastEnvelope
  let avgLevelDb := toDb M avgLevel
  let triggerDb := triggerThresholdDb avgLevelDb thresholdDb
  let targetGainReduction := targetGain reductionAmount envelopeDb triggerDb
  { st with
    detectionLPF := r.2
    fastEnvelope := fastEnvelope
    slowEnvelope := slowEnvelope
    avgLevel := avgLevel
    targetGainReduction := targetGainReduction
    currentGainReduction :=
      smoothGainStep st.gainSmoothCoeff targetGainReduction st.currentGainReduction }

/-- The read position of the delay line,
`(delayWritePos - lookaheadSamples + MAX_LOOKAHEAD_SAMPLES) % MAX_LOOKAHEAD_SAMPLES`. -/
def delayReadPos (delayWritePos lookaheadSamples : Int) : Int :=
  (delayWritePos - lookaheadSamples + MAX_LOOKAHEAD_SAMPLES).tmod MAX_LOOKAHEAD_SAMPLES

/-- The body of the channel loop of `processBlock` for one channel: read the delayed
sample, store the current one, write the attenuated delayed sample to the buffer. -/
def processChannel (st : Processor α) (sample : Nat)
    (bd : List (List α) × List (List α)) (channel : Nat) : List (List α) × List (List α) :=
  let channelData := bd.1.getD channel []
  let delay := bd.2.getD channel []
  let readPos := delayReadPos st.delayWritePos st.lookaheadSamples
  let delayedSample := vecRead delay readPos
  let delay := vecWrite delay st.delayWritePos (channelData.getD sample 0)
  let smoothGain := blendGain st.currentGainReduction
  let outputSample := delayedSample * smoothGain
  (bd.1.set channel (channelData.set sample outputSample), bd.2.set channel delay)

/-- One iteration of the sample loop of `processBlock`. -/
def processSample (M : CMath α) (thresholdDb reductionAmount : α)
    (sb : Processor α × AudioBuffer α) (sample : Nat) : Processor α × AudioBuffer α :=
  let st := sb.1
  let buffer := sb.2
  let inputSum := (List.range st.totalNumInputChannels).foldl
    (fun acc channel => acc + buffer.getSample channel sample) 0
  let inputSum := inputSum / (st.totalNumInputChannels : α)
  let st := detectSample M thresholdDb reductionAmount st inputSum
  let bd := (List.range st.totalNumInputChannels).foldl (processChannel st sample)
    (buffer.data, st.delayBuffer)
  ({ st with
      delayBuffer := bd.2
      delayWritePos := (st.delayWritePos + 1).tmod MAX_LOOKAHEAD_SAMPLES },
   { buffer with data := bd.1 })

/-- The part of `processBlock` before the sample loop: unused output channels are
cleared and the filter coefficients are recomputed from the parameters. -/
def blockSetup (M : CMath α) (st : Processor α) (buffer : AudioBuffer α) :
    Processor α × AudioBuffer α :=
  let buffer := (List.range' st.totalNumInputChannels
    (st.totalNumOutputChannels - st.totalNumInputChannels)).foldl AudioBuffer.clear buffer
  let cutoffFreq := st.frequency
  ({ st with
      detectionLPF :=
        calculateBiquadLPF M st.currentSampleRate st.detectionLPF (cutoffFreq * 1.5) 0.5
      channelHPF1 := st.channelHPF1.map
        (fun f => calculateBiquadHPF M st.currentSampleRate f cutoffFreq 0.707)
      channelHPF2 := st.channelHPF2.map
        (fun f => calculateBiquadHPF M st.currentSampleRate f cutoffFreq 0.707) },
   buffer)

/-- The first `k` iterations of the sample loop of `processBlock`, after `blockSetup`. -/
def sampleLoop (M : CMath α) (st : Processor α) (buffer : AudioBuffer α) (k : Nat) :
    Processor α × AudioBuffer α :=
  let thresholdDb := st.threshold
  let reductionAmount := st.reduction / 100
  (List.range k).foldl (processSample M thresholdDb reductionAmount) (blockSetup M st buffer)

/-- The function `processBlock`: the processor after the block and the buffer, which
is processed in place. -/
def processBlock (M : CMath α) (st : Processor α) (buffer : AudioBuffer α) :
    Processor α × AudioBuffer α :=
  let numSamples := buffer.numSamples
  let sb := sampleLoop M st buffer numSamples
  ({ sb.1 with
      meterInputLevel := |sb.2.getSample 0 (numSamples / 2)|
      meterDetectionLevel := sb.1.fastEnvelope
      meterGainReduction := 1 - sb.1.currentGainReduction },
   sb.2)

/-- A sequence of `processBlock` calls: the final processor and the processed buffers. -/
def processBlocks (M : CMath α) (st : Processor α) :
    List (AudioBuffer α) → Processor α × List (AudioBuffer α)
  | [] => (st, [])
  | buffer :: rest =>
    let r := processBlock M st buffer
    let rs := processBlocks M r.1 rest
    (rs.1, r.2 :: rs.2)

/-- The gain after `n` smoothing steps with the target held fixed. -/
def gainAfter (gainSmoothCoeff target : α) : Nat → α → α
  | 0, g => g
  | n + 1, g => gainAfter gainSmoothCoeff target n (smoothGainStep gainSmoothCoeff target g)

/-- The gain `g` is within 1% of the target. -/
def withinOnePercent (target g : α) : Prop :=
  |g - target| ≤ 0.01 * target

instance (target g : α) : Decidable (withinOnePercent target g) := by
  unfold withinOnePercent
  infer_instance

/-- The number `N` is the least number of smoothing steps after which the gain, started
at `start` with the target held at `target`, is within 1% of the target. -/
def IsSettleTime (gainSmoothCoeff target start : α) (N : Nat) : Prop :=
  withinOnePercent target (gainAfter gainSmoothCoeff target N start) ∧
    ∀ m, m < N → ¬ withinOnePercent target (gainAfter gainSmoothCoeff target m start)

/-- A predicate on processors that each stage of `processBlock` maintains: the setup
before the loop, one iteration of the sample loop run with parameters for which `Q`
holds, and the publication of the meters. -/
structure Preserved (M : CMath α) (Q : α → α → Prop) (P : Processor α → Prop) : Prop where
  params : ∀ st, P st → Q st.threshold (st.reduction / 100)
  setup : ∀ st buffer, P st → P (blockSetup M st buffer).1
  step : ∀ thresholdDb reductionAmount sb sample, Q thresholdDb reductionAmount → P sb.1 →
    P (processSample M thresholdDb reductionAmount sb sample).1
  meters : ∀ st a b c, P st →
    P { st with meterInputLevel := a, meterDetectionLevel := b, meterGainReduction := c }

/-- The trackers of the detector are non-negative and their coefficients lie in `(0, 1]`. -/
def TrackerInv (st : Processor α) : Prop :=
  (0 < st.fastAttack ∧ st.fastAttack ≤ 1) ∧ (0 < st.fastRelease ∧ st.fastRelease ≤ 1) ∧
    (0 < st.slowAttack ∧ st.slowAttack ≤ 1) ∧ (0 < st.slowRelease ∧ st.slowRelease ≤ 1) ∧
    (0 < st.avgLevelCoeff ∧ st.avgLevelCoeff ≤ 1) ∧
    0 ≤ st.fastEnvelope ∧ 0 ≤ st.slowEnvelope ∧ 0 ≤ st.avgLevel

/-- The smoothed gain lies in `[0.05, 1]`, the smoothing coefficient in `(0, 1/2]` and the
reduction parameter is not negative. -/
def GainInv (st : Processor α) : Prop :=
  (0 < st.gainSmoothCoeff ∧ st.gainSmoothCoeff ≤ 1 / 2) ∧ 0 ≤ st.reduction ∧
    0.05 ≤ st.currentGainReduction ∧ st.currentGainReduction ≤ 1

/-- The sample `D` positions before position `n` of the stream `xs`, and 0 before the
stream starts: the value at position `n` of `xs` delayed by `D` samples. -/
def delayedStream (D : Nat) (xs : List α) (n : Nat) : α :=
  if n < D then 0 else xs.getD (n - D) 0

/-- The delay in samples that the delay line applies for a given `lookaheadSamples`. -/
def effectiveDelay (lookaheadSamples : Int) : Nat :=
  if lookaheadSamples = 0 then 512 else lookaheadSamples.toNat

/-- The samples of one channel over a sequence of buffers, in order. -/
def channelStream (channel : Nat) (buffers : List (AudioBuffer α)) : List α :=
  buffers.flatMap (fun b => b.data.getD channel [])

/-- Each of the first `numChannels` channels of the buffer holds `numSamples` samples. -/
def AudioBuffer.WellFormed (numChannels : Nat) (buffer : AudioBuffer α) : Prop :=
  ∀ channel, channel < numChannels → (buffer.data.getD channel []).length = buffer.numSamples

/-- The ring `row` with write cursor `w` holds the last 512 samples of `hist`: the
slot `d` positions behind the cursor holds the sample `d` positions before the end. -/
def DelayLineInv (row : List α) (w : Int) (hist : List α) : Prop :=
  row.length = 512 ∧ w = ((hist.length % 512 : Nat) : Int) ∧
    ∀ d : Nat, 1 ≤ d → d ≤ 512 →
      row.getD ((hist.length + 512 - d) % 512) 0 = delayedStream d hist hist.length

/-- Every sample of every channel is 0. -/
def AllZero (rows : List (List α)) : Prop :=
  ∀ row ∈ rows, ∀ x ∈ row, x = 0

/-- The detector is at rest: filter state and fast envelope are 0, the delay line is
empty, the gain is at most 1 and the smoothing coefficient lies in `[0, 1]`. -/
def SilenceInv (st : Processor α) : Prop :=
  st.detectionLPF.z1 = 0 ∧ st.detectionLPF.z2 = 0 ∧ st.fastEnvelope = 0 ∧
    AllZero st.delayBuffer ∧ st.currentGainReduction ≤ 1 ∧
    0 ≤ st.gainSmoothCoeff ∧ st.gainSmoothCoeff ≤ 1

/-- The facts the round trip at zero reduction rests on: unit gain, reduction parameter
0, a fixed look-ahead and a fixed number of input channels. -/
def RoundTripInv (L : Int) (n : Nat) (st : Processor α) : Prop :=
  st.currentGainReduction = 1 ∧ st.reduction = 0 ∧ st.lookaheadSamples = L ∧
    st.totalNumInputChannels = n

/-- The write cursor is inside the ring, the look-ahead and the number of input channels
are fixed, and the ring of each input channel has 512 slots. -/
def CursorInv (L : Int) (n : Nat) (st : Processor α) : Prop :=
  (0 ≤ st.delayWritePos ∧ st.delayWritePos < MAX_LOOKAHEAD_SAMPLES) ∧
    st.lookaheadSamples = L ∧ st.totalNumInputChannels = n ∧
    ∀ ch, ch < n → (st.delayBuffer.getD ch []).length = 512

/-- The smallest positive normal binary32 number, `2^-126` (`FLT_MIN` of `<cfloat>`). -/
def FLT_MIN : α := 1 / 2 ^ 126

/-- The effect of `juce::ScopedNoDenormals`, the first statement of `processBlock`, on an
arithmetic result: in flush-to-zero mode a result whose magnitude is below the smallest
normal binary32 number is replaced by 0. -/
def flushDenormal (x : α) : α :=
  if |x| < FLT_MIN then 0 else x

/-- The body of the channel loop of `processBlock` for one channel, with the product
`delayedSample * smoothGain` delivered by flush-to-zero arithmetic (the rounding of a
normal result is not modelled). -/
def processChannelFlushed (st : Processor α) (sample : Nat)
    (bd : List (List α) × List (List α)) (channel : Nat) : List (List α) × List (List α) :=
  let channelData := bd.1.getD channel []
  let delay := bd.2.getD channel []
  let readPos := delayReadPos st.delayWritePos st.lookaheadSamples
  let delayedSample := vecRead delay readPos
  let delay := vecWrite delay st.delayWritePos (channelData.getD sample 0)
  let smoothGain := blendGain st.currentGainReduction
  let outputSample := flushDenormal (delayedSample * smoothGain)
  (bd.1.set channel (channelData.set sample outputSample), bd.2.set channel delay)


end Definitions

/-! ## Sensitivity and the trigger threshold -/

section Threshold

variable {α : Type} [LinearOrderedField α]

/-- C6: for a fixed average level, the trigger threshold computed in `processBlock`
for a sensitivity `s'` is at most the one computed for any sensitivity `s ≤ s'`; at
sensitivity 24 the offset above the average level is 0 dB and at sensitivity 0 it is
24 dB. -/
theorem triggerThresholdDb_antitone (M : CMath α) (avgLevel s s' : α) (hss : s ≤ s') :
    triggerThresholdDb (toDb M avgLevel) s' ≤ triggerThresholdDb (toDb M avgLevel) s ∧
      triggerThresholdDb (toDb M avgLevel) 24 = toDb M avgLevel + 0 ∧
      triggerThresholdDb (toDb M avgLevel) 0 = toDb M avgLevel + 24 := by
  refine ⟨?_, ?_, ?_⟩
  · unfold triggerThresholdDb
    linarith
  · unfold triggerThresholdDb
    norm_num
  · unfold triggerThresholdDb
    norm_num

/-- C6 at a concrete input: average level 1/2, sensitivities 6 and 12. -/
theorem triggerThresholdDb_antitone_witness :
    (6 : ℝ) ≤ 12 ∧
      triggerThresholdDb
          (toDb (CMath.mk Real.cos Real.sin Real.exp (Real.logb 10) Real.pi) (1 / 2)) 12 ≤
        triggerThresholdDb
          (toDb (CMath.mk Real.cos Real.sin Real.exp (Real.logb 10) Real.pi) (1 / 2)) 6 :=
  ⟨by norm_num,
    (triggerThresholdDb_antitone (CMath.mk Real.cos Real.sin Real.exp (Real.logb 10) Real.pi)
      (1 / 2) 6 12 (by norm_num)).1⟩

end Threshold

/-! ## The sample loop and the predicates it maintains -/

section Loop

variable {α : Type} [LinearOrderedField α]

theorem sampleLoop_zero (M : CMath α) (st : Processor α) (buffer : AudioBuffer α) :
    sampleLoop M st buffer 0 = blockSetup M st buffer := by
  simp [sampleLoop]

theorem sampleLoop_succ (M : CMath α) (st : Processor α) (buffer : AudioBuffer α) (k : Nat) :
    sampleLoop M st buffer (k + 1) =
      processSample M st.threshold (st.reduction / 100) (sampleLoop M st buffer k) k := by
  simp [sampleLoop, List.range_succ, List.foldl_append]

theorem Preserved.sampleLoop {M : CMath α} {Q : α → α → Prop} {P : Processor α → Prop}
    (hP : Preserved M Q P) (st : Processor α) (buffer : AudioBuffer α) (h : P st) (k : Nat) :
    P (sampleLoop M st buffer k).1 := by
  induction k with
  | zero => rw [sampleLoop_zero]; exact hP.setup st buffer h
  | succ k ih => rw [sampleLoop_succ]; exact hP.step _ _ _ _ (hP.params st h) ih

theorem Preserved.processBlock {M : CMath α} {Q : α → α → Prop} {P : Processor α → Prop}
    (hP : Preserved M Q P) (st : Processor α) (buffer : AudioBuffer α) (h : P st) :
    P (processBlock M st buffer).1 := by
  unfold PlosiveRemover.processBlock
  exact hP.meters _ _ _ _ (hP.sampleLoop st buffer h _)

theorem Preserved.processBlocks {M : CMath α} {Q : α → α → Prop} {P : Processor α → Prop}
    (hP : Preserved M Q P) (buffers : List (AudioBuffer α)) :
    ∀ st : Processor α, P st → P (processBlocks M st buffers).1 := by
  induction buffers with
  | nil => intro st h; exact h
  | cons b rest ih =>
    intro st h
    simp only [PlosiveRemover.processBlocks]
    exact ih _ (hP.processBlock st b h)

end Loop

/-! ## One-pole trackers -/

section Trackers

variable {α : Type} [LinearOrderedField α]

theorem envelopeUpdate_between (a r v x : α) (ha0 : 0 ≤ a) (ha1 : a ≤ 1) (hr0 : 0 ≤ r)
    (hr1 : r ≤ 1) :
    min v x ≤ envelopeUpdate a r v x ∧ envelopeUpdate a r v x ≤ max v x := by
  unfold envelopeUpdate
  split_ifs with h
  · have hvx : v ≤ x := le_of_lt h
    rw [min_eq_left hvx, max_eq_right hvx]
    constructor
    · nlinarith [mul_nonneg ha0 (sub_nonneg.2 hvx)]
    · nlinarith [mul_nonneg (sub_nonneg.2 ha1) (sub_nonneg.2 hvx)]
  · have hxv : x ≤ v := not_lt.mp h
    rw [min_eq_right hxv, max_eq_left hxv]
    constructor
    · nlinarith [mul_nonneg (sub_nonneg.2 hr1) (sub_nonneg.2 hxv)]
    · nlinarith [mul_nonneg hr0 (sub_nonneg.2 hxv)]

theorem avgLevelUpdate_between (k v x : α) (hk0 : 0 ≤ k) (hk1 : k ≤ 1) :
    min v x ≤ avgLevelUpdate k v x ∧ avgLevelUpdate k v x ≤ max v x := by
  unfold avgLevelUpdate
  rcases le_total v x with hvx | hxv
  · rw [min_eq_left hvx, max_eq_right hvx]
    constructor
    · nlinarith [mul_nonneg hk0 (sub_nonneg.2 hvx)]
    · nlinarith [mul_nonneg (sub_nonneg.2 hk1) (sub_nonneg.2 hvx)]
  · rw [min_eq_right hxv, max_eq_left hxv]
    constructor
    · nlinarith [mul_nonneg (sub_nonneg.2 hk1) (sub_nonneg.2 hxv)]
    · nlinarith [mul_nonneg hk0 (sub_nonneg.2 hxv)]

theorem trackerInv_preserved (M : CMath α) : Preserved M (fun _ _ => True) TrackerInv where
  params := fun _ _ => trivial
  setup := fun st buffer h => h
  step := by
    intro thresholdDb reductionAmount sb sample _ h
    obtain ⟨hfa, hfr, hsa, hsr, hav, hf, hs, ha⟩ := h
    refine ⟨hfa, hfr, hsa, hsr, hav, ?_, ?_, ?_⟩
    · exact le_trans (le_min hf (abs_nonneg _))
        (envelopeUpdate_between _ _ _ _ hfa.1.le hfa.2 hfr.1.le hfr.2).1
    · exact le_trans (le_min hs (abs_nonneg _))
        (envelopeUpdate_between _ _ _ _ hsa.1.le hsa.2 hsr.1.le hsr.2).1
    · exact le_trans (le_min ha (abs_nonneg _))
        (avgLevelUpdate_between _ _ _ hav.1.le hav.2).1
  meters := fun st a b c h => h

/-- C10: with every tracker coefficient in `(0, 1]`, a rectified input `x ≥ 0` and
non-negative tracker values, each tracker update of `processBlock` (fast envelope, slow
envelope, average level) yields a value that is non-negative and lies in the closed
interval between the old value and `x`; and after any number of processed blocks and
any number of samples of the next block the fast envelope, the slow envelope and the
average level are non-negative. -/
theorem tracker_invariant (M : CMath α) (st : Processor α) (x : α)
    (buffers : List (AudioBuffer α)) (buffer : AudioBuffer α) (k : Nat)
    (hfa : 0 < st.fastAttack ∧ st.fastAttack ≤ 1)
    (hfr : 0 < st.fastRelease ∧ st.fastRelease ≤ 1)
    (hsa : 0 < st.slowAttack ∧ st.slowAttack ≤ 1)
    (hsr : 0 < st.slowRelease ∧ st.slowRelease ≤ 1)
    (hav : 0 < st.avgLevelCoeff ∧ st.avgLevelCoeff ≤ 1)
    (hf : 0 ≤ st.fastEnvelope) (hs : 0 ≤ st.slowEnvelope) (ha : 0 ≤ st.avgLevel)
    (hx : 0 ≤ x) :
    (0 ≤ envelopeUpdate st.fastAttack st.fastRelease st.fastEnvelope x ∧
      min st.fastEnvelope x ≤ envelopeUpdate st.fastAttack st.fastRelease st.fastEnvelope x ∧
      envelopeUpdate st.fastAttack st.fastRelease st.fastEnvelope x ≤ max st.fastEnvelope x) ∧
    (0 ≤ envelopeUpdate st.slowAttack st.slowRelease st.slowEnvelope x ∧
      min st.slowEnvelope x ≤ envelopeUpdate st.slowAttack st.slowRelease st.slowEnvelope x ∧
      envelopeUpdate st.slowAttack st.slowRelease st.slowEnvelope x ≤ max st.slowEnvelope x) ∧
    (0 ≤ avgLevelUpdate st.avgLevelCoeff st.avgLevel x ∧
      min st.avgLevel x ≤ avgLevelUpdate st.avgLevelCoeff st.avgLevel x ∧
      avgLevelUpdate st.avgLevelCoeff st.avgLevel x ≤ max st.avgLevel x) ∧
    0 ≤ (sampleLoop M (processBlocks M st buffers).1 buffer k).1.fastEnvelope ∧
    0 ≤ (sampleLoop M (processBlocks M st buffers).1 buffer k).1.slowEnvelope ∧
    0 ≤ (sampleLoop M (processBlocks M st buffers).1 buffer k).1.avgLevel := by
  have e1 := envelopeUpdate_between st.fastAttack st.fastRelease st.fastEnvelope x
    hfa.1.le hfa.2 hfr.1.le hfr.2
  have e2 := envelopeUpdate_between st.slowAttack st.slowRelease st.slowEnvelope x
    hsa.1.le hsa.2 hsr.1.le hsr.2
  have e3 := avgLevelUpdate_between st.avgLevelCoeff st.avgLevel x hav.1.le hav.2
  have hinv : TrackerInv (sampleLoop M (processBlocks M st buffers).1 buffer k).1 :=
    (trackerInv_preserved M).sampleLoop _ buffer
      ((trackerInv_preserved M).processBlocks buffers st ⟨hfa, hfr, hsa, hsr, hav, hf, hs, ha⟩) k
  exact ⟨⟨le_trans (le_min hf hx) e1.1, e1⟩, ⟨le_trans (le_min hs hx) e2.1, e2⟩,
    ⟨le_trans (le_min ha hx) e3.1, e3⟩, hinv.2.2.2.2.2.1, hinv.2.2.2.2.2.2.1,
    hinv.2.2.2.2.2.2.2⟩

/-- C10 at a concrete input: every coefficient 1/2, trackers at 0, rectified input 1,
one stereo sample processed. -/
theorem tracker_invariant_witness :
    (0 < (1 / 2 : ℝ) ∧ (1 / 2 : ℝ) ≤ 1) ∧ (0 : ℝ) ≤ 1 ∧
      0 ≤ (sampleLoop (CMath.mk Real.cos Real.sin Real.exp (Real.logb 10) Real.pi)
        (processBlocks (CMath.mk Real.cos Real.sin Real.exp (Real.logb 10) Real.pi)
          { fastAttack := 1 / 2, fastRelease := 1 / 2, slowAttack := 1 / 2,
            slowRelease := 1 / 2, avgLevelCoeff := 1 / 2 } []).1
        ⟨1, [[1], [1]]⟩ 1).1.avgLevel :=
  ⟨by norm_num, by norm_num,
    (tracker_invariant (CMath.mk Real.cos Real.sin Real.exp (Real.logb 10) Real.pi)
      { fastAttack := 1 / 2, fastRelease := 1 / 2, slowAttack := 1 / 2,
        slowRelease := 1 / 2, avgLevelCoeff := 1 / 2 } 1 [] ⟨1, [[1], [1]]⟩ 1
      (by norm_num) (by norm_num) (by norm_num) (by norm_num) (by norm_num)
      (by norm_num) (by norm_num) (by norm_num) (by norm_num)).2.2.2.2.2⟩

end Trackers

/-! ## Bounds on the target gain and the smoothed gain -/

section Gain

variable {α : Type} [LinearOrderedField α]

theorem targetGain_bounds (reductionAmount envelopeDb triggerDb : α)
    (h0 : 0 ≤ reductionAmount) :
    0.05 ≤ targetGain reductionAmount envelopeDb triggerDb ∧
      targetGain reductionAmount envelopeDb triggerDb ≤ 1 := by
  unfold targetGain
  split_ifs with h
  · refine ⟨le_max_left _ _, max_le (by norm_num) ?_⟩
    have hr : 0 ≤ min 1 ((envelopeDb - triggerDb) / 6) :=
      le_min zero_le_one (div_nonneg (by linarith [h.1]) (by norm_num))
    nlinarith [mul_nonneg h0 hr]
  · exact ⟨by norm_num, le_refl _⟩

theorem smoothGainStep_bounds (c target current lo hi : α) (hc0 : 0 ≤ c) (hc1 : c ≤ 1 / 2)
    (ht : lo ≤ target ∧ target ≤ hi) (hg : lo ≤ current ∧ current ≤ hi) :
    lo ≤ smoothGainStep c target current ∧ smoothGainStep c target current ≤ hi := by
  unfold smoothGainStep
  split_ifs with h
  · constructor
    · nlinarith [mul_nonneg (sub_nonneg.2 hc1) (sub_nonneg.2 (le_of_lt h)), ht.1]
    · nlinarith [mul_nonneg hc0 (sub_nonneg.2 (le_of_lt h)), hg.2]
  · have h' : current ≤ target := not_lt.mp h
    constructor
    · nlinarith [mul_nonneg hc0 (sub_nonneg.2 h'), hg.1]
    · nlinarith [mul_nonneg (sub_nonneg.2 hc1) (sub_nonneg.2 h'), mul_nonneg hc0 (sub_nonneg.2 h'),
        ht.2]

theorem gainInv_preserved (M : CMath α) : Preserved M (fun _ r => 0 ≤ r) GainInv where
  params := fun st h => div_nonneg h.2.1 (by norm_num)
  setup := fun st buffer h => h
  step := by
    intro thresholdDb reductionAmount sb sample hq h
    obtain ⟨hc, hr, hg⟩ := h
    exact ⟨hc, hr, smoothGainStep_bounds _ _ _ _ _ hc.1.le hc.2 (targetGain_bounds _ _ _ hq) hg⟩
  meters := fun st a b c h => h

/-- The gain bound where the attack step does not overshoot: from a state with
`currentGainReduction = 1`, for every
`gainSmoothCoeff` in `(0, 1/2]`, every reduction parameter that is not negative (so every
one in `[0, 100]`), every sensitivity and every input, after every processed sample of
every block both `targetGainReduction` and the smoothed `currentGainReduction` lie in
`[0.05, 1]`. -/
theorem gain_bounds (M : CMath α) (st : Processor α) (buffers : List (AudioBuffer α))
    (buffer : AudioBuffer α) (k : Nat)
    (hc0 : 0 < st.gainSmoothCoeff) (hc1 : st.gainSmoothCoeff ≤ 1 / 2)
    (hr : 0 ≤ st.reduction) (hg : st.currentGainReduction = 1) :
    (0.05 ≤ (sampleLoop M (processBlocks M st buffers).1 buffer (k + 1)).1.targetGainReduction ∧
      (sampleLoop M (processBlocks M st buffers).1 buffer (k + 1)).1.targetGainReduction ≤ 1) ∧
    (0.05 ≤ (sampleLoop M (processBlocks M st buffers).1 buffer (k + 1)).1.currentGainReduction ∧
      (sampleLoop M (processBlocks M st buffers).1 buffer (k + 1)).1.currentGainReduction ≤ 1) := by
  have h0 : GainInv st := ⟨⟨hc0, hc1⟩, hr, by rw [hg]; norm_num, by rw [hg]⟩
  have h1 : GainInv (processBlocks M st buffers).1 :=
    (gainInv_preserved M).processBlocks buffers st h0
  refine ⟨?_, ((gainInv_preserved M).sampleLoop _ buffer h1 (k + 1)).2.2⟩
  rw [sampleLoop_succ]
  exact targetGain_bounds _ _ _ ((gainInv_preserved M).params _ h1)

/-- The gain bound at a concrete input: coefficient 1/2, reduction 100, one stereo
sample. -/
theorem gain_bounds_witness :
    ((0 : ℝ) < 1 / 2 ∧ (1 / 2 : ℝ) ≤ 1 / 2 ∧ (0 : ℝ) ≤ 100) ∧
      0.05 ≤ (sampleLoop (CMath.mk Real.cos Real.sin Real.exp (Real.logb 10) Real.pi)
        (processBlocks (CMath.mk Real.cos Real.sin Real.exp (Real.logb 10) Real.pi)
          { gainSmoothCoeff := 1 / 2, reduction := 100 } []).1
        ⟨1, [[1], [1]]⟩ (0 + 1)).1.currentGainReduction :=
  ⟨by norm_num,
    (gain_bounds (CMath.mk Real.cos Real.sin Real.exp (Real.logb 10) Real.pi)
      { gainSmoothCoeff := 1 / 2, reduction := 100 } [] ⟨1, [[1], [1]]⟩ 0
      (by norm_num) (by norm_num) (by norm_num) rfl).2.1⟩

/-- The target gain lies in `[0.05, 1]` after every processed sample, for every
`gainSmoothCoeff`, whenever the reduction parameter is not negative. -/
theorem target_bounds (M : CMath α) (st : Processor α) (buffers : List (AudioBuffer α))
    (buffer : AudioBuffer α) (k : Nat) (hr : 0 ≤ st.reduction) :
    0.05 ≤ (sampleLoop M (processBlocks M st buffers).1 buffer (k + 1)).1.targetGainReduction ∧
      (sampleLoop M (processBlocks M st buffers).1 buffer (k + 1)).1.targetGainReduction ≤ 1 := by
  have hP : Preserved M (fun _ r => 0 ≤ r) (fun s : Processor α => 0 ≤ s.reduction) :=
    { params := fun s h => div_nonneg h (by norm_num)
      setup := fun _ _ h => h
      step := fun _ _ _ _ _ h => h
      meters := fun _ _ _ _ h => h }
  rw [sampleLoop_succ]
  exact targetGain_bounds _ _ _ (hP.params _ (hP.processBlocks buffers st hr))

end Gain

/-! ## Silence -/

section Silence

variable {α : Type} [LinearOrderedField α]

theorem getD_eq_zero_of_zero (row : List α) (h : ∀ x ∈ row, x = 0) (i : Nat) :
    row.getD i 0 = 0 := by
  rw [List.getD_eq_getElem?_getD]
  rcases hi : row[i]? with _ | v
  · rfl
  · exact h v (List.getElem?_mem hi)

theorem AllZero.row {rows : List (List α)} (h : AllZero rows) (ch : Nat) :
    ∀ x ∈ rows.getD ch [], x = 0 := by
  rw [List.getD_eq_getElem?_getD]
  rcases hi : rows[ch]? with _ | v
  · intro x hx; simp at hx
  · exact h v (List.getElem?_mem hi)

theorem AllZero.set {rows : List (List α)} (h : AllZero rows) (ch : Nat) (row : List α)
    (hrow : ∀ x ∈ row, x = 0) : AllZero (rows.set ch row) := by
  intro r hr
  rcases List.mem_or_eq_of_mem_set hr with h1 | h1
  · exact h r h1
  · rw [h1]; exact hrow

theorem zero_set (row : List α) (h : ∀ x ∈ row, x = 0) (i : Nat) :
    ∀ x ∈ row.set i 0, x = 0 := by
  intro x hx
  rcases List.mem_or_eq_of_mem_set hx with h1 | h1
  · exact h x h1
  · exact h1

theorem vecRead_zero (row : List α) (h : ∀ x ∈ row, x = 0) (i : Int) : vecRead row i = 0 := by
  unfold vecRead
  split_ifs
  · exact getD_eq_zero_of_zero row h _
  · rfl

theorem vecWrite_zero (row : List α) (h : ∀ x ∈ row, x = 0) (i : Int) :
    ∀ x ∈ vecWrite row i 0, x = 0 := by
  unfold vecWrite
  split_ifs
  · exact zero_set row h _
  · exact h

theorem processChannel_zero (st : Processor α) (sample : Nat)
    (bd : List (List α) × List (List α)) (channel : Nat)
    (h : AllZero bd.1 ∧ AllZero bd.2) :
    AllZero (processChannel st sample bd channel).1 ∧
      AllZero (processChannel st sample bd channel).2 := by
  unfold processChannel
  simp only
  rw [vecRead_zero _ (h.2.row channel), getD_eq_zero_of_zero _ (h.1.row channel), zero_mul]
  exact ⟨h.1.set _ _ (zero_set _ (h.1.row channel) _),
    h.2.set _ _ (vecWrite_zero _ (h.2.row channel) _)⟩

theorem channelLoop_zero (st : Processor α) (sample : Nat) (channels : List Nat) :
    ∀ bd : List (List α) × List (List α), AllZero bd.1 ∧ AllZero bd.2 →
      AllZero (channels.foldl (processChannel st sample) bd).1 ∧
        AllZero (channels.foldl (processChannel st sample) bd).2 := by
  induction channels with
  | nil => intro bd h; exact h
  | cons c rest ih =>
    intro bd h
    rw [List.foldl_cons]
    exact ih _ (processChannel_zero st sample bd c h)

theorem inputSum_zero (buffer : AudioBuffer α) (h : AllZero buffer.data) (sample : Nat)
    (channels : List Nat) :
    channels.foldl (fun acc channel => acc + buffer.getSample channel sample) 0 = 0 := by
  induction channels with
  | nil => rfl
  | cons c rest ih =>
    rw [List.foldl_cons]
    have : buffer.getSample c sample = 0 := getD_eq_zero_of_zero _ (h.row c) _
    rw [this, add_zero]
    exact ih

theorem clearLoop_zero (channels : List Nat) :
    ∀ buffer : AudioBuffer α, AllZero buffer.data →
      AllZero (channels.foldl AudioBuffer.clear buffer).data := by
  induction channels with
  | nil => intro b h; exact h
  | cons c rest ih =>
    intro b h
    rw [List.foldl_cons]
    apply ih
    exact h.set _ _ (fun x hx => (List.mem_replicate.1 hx).2)

theorem blockSetup_silence (M : CMath α) (st : Processor α) (buffer : AudioBuffer α)
    (hs : SilenceInv st) (hb : AllZero buffer.data) :
    SilenceInv (blockSetup M st buffer).1 ∧ AllZero (blockSetup M st buffer).2.data ∧
      (blockSetup M st buffer).1.currentGainReduction = st.currentGainReduction :=
  ⟨hs, clearLoop_zero _ _ hb, rfl⟩

theorem detectSample_silence (M : CMath α) (thresholdDb reductionAmount : α)
    (st : Processor α) (hs : SilenceInv st) :
    SilenceInv (detectSample M thresholdDb reductionAmount st 0) ∧
      (detectSample M thresholdDb reductionAmount st 0).targetGainReduction = 1 ∧
      st.currentGainReduction ≤
        (detectSample M thresholdDb reductionAmount st 0).currentGainReduction ∧
      (st.currentGainReduction = 1 →
        (detectSample M thresholdDb reductionAmount st 0).currentGainReduction = 1) := by
  obtain ⟨hz1, hz2, hf, hd, hg, hc0, hc1⟩ := hs
  have hout : (st.detectionLPF.process 0).1 = 0 := by
    simp [BiquadFilter.process, hz1, hz2]
  have hfast : envelopeUpdate st.fastAttack st.fastRelease st.fastEnvelope 0 = 0 := by
    simp [envelopeUpdate, hf]
  have hdb : toDb M (0 : α) = -100 := by
    unfold toDb
    rw [if_neg (by norm_num)]
  have htarget : ∀ t : α, targetGain reductionAmount (-100) t = 1 := by
    intro t
    unfold targetGain
    rw [if_neg]
    intro h
    norm_num at h
  have hstep : smoothGainStep st.gainSmoothCoeff 1 st.currentGainReduction =
      st.currentGainReduction + st.gainSmoothCoeff * 0.3 * (1 - st.currentGainReduction) := by
    unfold smoothGainStep
    rw [if_neg (not_lt.mpr hg)]
  have hprod : 0 ≤ st.gainSmoothCoeff * 0.3 * (1 - st.currentGainReduction) :=
    mul_nonneg (mul_nonneg hc0 (by norm_num)) (sub_nonneg.2 hg)
  have hcur : (detectSample M thresholdDb reductionAmount st 0).currentGainReduction =
      st.currentGainReduction + st.gainSmoothCoeff * 0.3 * (1 - st.currentGainReduction) := by
    simp only [detectSample, hout, abs_zero, hfast, hdb, htarget, hstep]
  refine ⟨⟨?_, ?_, ?_, hd, ?_, hc0, hc1⟩, ?_, ?_, ?_⟩
  · simp [detectSample, BiquadFilter.process, hz1, hz2]
  · simp [detectSample, BiquadFilter.process, hz1, hz2]
  · simp only [detectSample, hout, abs_zero, hfast]
  · rw [hcur]
    nlinarith [mul_nonneg (sub_nonneg.2 hg) (show (0 : α) ≤ 1 - st.gainSmoothCoeff * 0.3 by
      norm_num; linarith)]
  · simp only [detectSample, hout, abs_zero, hfast, hdb, htarget]
  · rw [hcur]; linarith
  · intro h1
    rw [hcur, h1]; ring

theorem processSample_silence (M : CMath α) (thresholdDb reductionAmount : α)
    (sb : Processor α × AudioBuffer α) (sample : Nat)
    (hs : SilenceInv sb.1) (hb : AllZero sb.2.data) :
    SilenceInv (processSample M thresholdDb reductionAmount sb sample).1 ∧
      AllZero (processSample M thresholdDb reductionAmount sb sample).2.data ∧
      (processSample M thresholdDb reductionAmount sb sample).1.targetGainReduction = 1 ∧
      sb.1.currentGainReduction ≤
        (processSample M thresholdDb reductionAmount sb sample).1.currentGainReduction ∧
      (sb.1.currentGainReduction = 1 →
        (processSample M thresholdDb reductionAmount sb sample).1.currentGainReduction = 1) := by
  have hsum : (List.range sb.1.totalNumInputChannels).foldl
      (fun acc channel => acc + sb.2.getSample channel sample) 0 /
        (sb.1.totalNumInputChannels : α) = 0 := by
    rw [inputSum_zero _ hb, zero_div]
  obtain ⟨h1, h2, h3, h4⟩ := detectSample_silence M thresholdDb reductionAmount sb.1 hs
  have hch := channelLoop_zero (detectSample M thresholdDb reductionAmount sb.1 0) sample
    (List.range (detectSample M thresholdDb reductionAmount sb.1 0).totalNumInputChannels)
    (sb.2.data, (detectSample M thresholdDb reductionAmount sb.1 0).delayBuffer)
    ⟨hb, h1.2.2.2.1⟩
  unfold processSample
  simp only [hsum]
  exact ⟨⟨h1.1, h1.2.1, h1.2.2.1, hch.2, h1.2.2.2.2⟩, hch.1, h2, h3, h4⟩

theorem sampleLoop_silence (M : CMath α) (st : Processor α) (buffer : AudioBuffer α)
    (hs : SilenceInv st) (hb : AllZero buffer.data) (k : Nat) :
    SilenceInv (sampleLoop M st buffer k).1 ∧ AllZero (sampleLoop M st buffer k).2.data ∧
      (st.currentGainReduction = 1 → (sampleLoop M st buffer k).1.currentGainReduction = 1) ∧
      st.currentGainReduction ≤ (sampleLoop M st buffer k).1.currentGainReduction := by
  induction k with
  | zero =>
    rw [sampleLoop_zero]
    obtain ⟨h1, h2, h3⟩ := blockSetup_silence M st buffer hs hb
    exact ⟨h1, h2, fun h => by rw [h3, h], by rw [h3]⟩
  | succ k ih =>
    rw [sampleLoop_succ]
    obtain ⟨h1, h2, _, h4, h5⟩ :=
      processSample_silence M st.threshold (st.reduction / 100) _ k ih.1 ih.2.1
    exact ⟨h1, h2, fun h => h5 (ih.2.2.1 h), le_trans ih.2.2.2 h4⟩

/-- C2: from a state in which the detection filter state, the fast envelope and every
delay slot are 0, `currentGainReduction ≤ 1` (so anywhere in `[0.05, 1]`) and
`gainSmoothCoeff` is in `[0, 1]`, processing an all-zero block of any length with any
parameters yields an all-zero buffer; at every sample of the block the trigger does not
fire (`targetGainReduction = 1`) and the meter value `1 - currentGainReduction` does
not increase and stays `≥ 0`; the published gain-reduction meter is at most its value
before the block; and when `currentGainReduction` starts at 1 the meter value stays
exactly 0. -/
theorem silence_invariant (M : CMath α) (st : Processor α) (buffer : AudioBuffer α)
    (hz1 : st.detectionLPF.z1 = 0) (hz2 : st.detectionLPF.z2 = 0)
    (hf : st.fastEnvelope = 0) (hd : AllZero st.delayBuffer)
    (hg : st.currentGainReduction ≤ 1)
    (hc0 : 0 ≤ st.gainSmoothCoeff) (hc1 : st.gainSmoothCoeff ≤ 1)
    (hb : AllZero buffer.data) :
    AllZero (processBlock M st buffer).2.data ∧
    (∀ k, k < buffer.numSamples →
      (sampleLoop M st buffer (k + 1)).1.targetGainReduction = 1 ∧
      1 - (sampleLoop M st buffer (k + 1)).1.currentGainReduction ≤
        1 - (sampleLoop M st buffer k).1.currentGainReduction ∧
      0 ≤ 1 - (sampleLoop M st buffer (k + 1)).1.currentGainReduction) ∧
    (processBlock M st buffer).1.meterGainReduction ≤ 1 - st.currentGainReduction ∧
    (st.currentGainReduction = 1 →
      (∀ k, k ≤ buffer.numSamples →
        1 - (sampleLoop M st buffer k).1.currentGainReduction = 0) ∧
      (processBlock M st buffer).1.meterGainReduction = 0) := by
  have hs : SilenceInv st := ⟨hz1, hz2, hf, hd, hg, hc0, hc1⟩
  have hloop := sampleLoop_silence M st buffer hs hb
  refine ⟨(hloop buffer.numSamples).2.1, ?_, ?_, ?_⟩
  · intro k _
    obtain ⟨h1, _, h3, h4, _⟩ :=
      processSample_silence M st.threshold (st.reduction / 100) _ k (hloop k).1 (hloop k).2.1
    rw [sampleLoop_succ]
    exact ⟨h3, by linarith, by linarith [h1.2.2.2.2.1]⟩
  · show 1 - (sampleLoop M st buffer buffer.numSamples).1.currentGainReduction ≤ _
    linarith [(hloop buffer.numSamples).2.2.2]
  · intro h1
    refine ⟨fun k _ => by rw [(hloop k).2.2.1 h1]; ring, ?_⟩
    show 1 - (sampleLoop M st buffer buffer.numSamples).1.currentGainReduction = 0
    rw [(hloop buffer.numSamples).2.2.1 h1]; ring

/-- C2 at a concrete input: a mono processor with a 512-slot empty delay line, gain
1/2 and smoothing coefficient 1/4, fed a block of three zero samples. -/
theorem silence_invariant_witness :
    AllZero (processBlock (CMath.mk Real.cos Real.sin Real.exp (Real.logb 10) Real.pi)
      { delayBuffer := [List.replicate 512 0], currentGainReduction := 1 / 2,
        gainSmoothCoeff := 1 / 4, totalNumInputChannels := 1, totalNumOutputChannels := 1 }
      ⟨3, [[0, 0, 0]]⟩).2.data :=
  (silence_invariant (CMath.mk Real.cos Real.sin Real.exp (Real.logb 10) Real.pi)
    { delayBuffer := [List.replicate 512 0], currentGainReduction := 1 / 2,
      gainSmoothCoeff := 1 / 4, totalNumInputChannels := 1, totalNumOutputChannels := 1 }
    ⟨3, [[0, 0, 0]]⟩ rfl rfl rfl
    (by intro row hrow x hx
        simp only [List.mem_singleton] at hrow
        rw [hrow] at hx
        exact (List.mem_replicate.1 hx).2)
    (by norm_num) (by norm_num) (by norm_num)
    (by intro row hrow x hx
        simp only [List.mem_singleton] at hrow
        rw [hrow] at hx
        simpa using hx)).1

end Silence

/-! ## The look-ahead delay line -/

section Delay

variable {α : Type} [LinearOrderedField α]

theorem getD_set_row {β : Type} (l : List β) (i j : Nat) (v d : β) :
    (l.set i v).getD j d = if i = j ∧ i < l.length then v else l.getD j d := by
  rw [List.getD_eq_getElem?_getD, List.getD_eq_getElem?_getD, List.getElem?_set]
  by_cases hij : i = j
  · by_cases hl : i < l.length
    · rw [if_pos hij, if_pos hl, if_pos ⟨hij, hl⟩]
      rfl
    · rw [if_pos hij, if_neg hl, if_neg (fun h => hl h.2), ← hij,
        List.getElem?_eq_none (not_lt.mp hl)]
  · rw [if_neg hij, if_neg (fun h => hij h.1)]

theorem getD_nil_of_length_le {β : Type} (l : List (List β)) (n : Nat) (h : l.length ≤ n) :
    l.getD n [] = [] := by
  rw [List.getD_eq_getElem?_getD, List.getElem?_eq_none h]
  rfl

theorem channelLoop_spec (st : Processor α) (sample : Nat) (data delay : List (List α))
    (n : Nat) :
    (∀ ch, ((List.range n).foldl (processChannel st sample) (data, delay)).1.getD ch [] =
      if ch < n then (data.getD ch []).set sample
        (vecRead (delay.getD ch []) (delayReadPos st.delayWritePos st.lookaheadSamples) *
          blendGain st.currentGainReduction)
      else data.getD ch []) ∧
    (∀ ch, ((List.range n).foldl (processChannel st sample) (data, delay)).2.getD ch [] =
      if ch < n then vecWrite (delay.getD ch []) st.delayWritePos
        ((data.getD ch []).getD sample 0)
      else delay.getD ch []) := by
  induction n with
  | zero =>
    constructor
    · intro ch; rw [if_neg (Nat.not_lt_zero ch)]; rfl
    · intro ch; rw [if_neg (Nat.not_lt_zero ch)]; rfl
  | succ n ih =>
    rw [List.range_succ, List.foldl_append]
    simp only [List.foldl_cons, List.foldl_nil]
    obtain ⟨ih1, ih2⟩ := ih
    have e1 := ih1 n
    have e2 := ih2 n
    rw [if_neg (lt_irrefl n)] at e1 e2
    constructor
    · intro ch
      simp only [processChannel]
      rw [getD_set_row, e1, e2]
      by_cases hch : n = ch
      · subst hch
        rw [if_pos (Nat.lt_succ_self n)]
        by_cases hl : n < ((List.range n).foldl (processChannel st sample) (data, delay)).1.length
        · rw [if_pos ⟨rfl, hl⟩]
        · rw [if_neg (fun h => hl h.2), e1]
          have hnil : data.getD n [] = [] := by
            rw [← e1]; exact getD_nil_of_length_le _ _ (not_lt.mp hl)
          rw [hnil]
          rfl
      · have hlt : ch < n + 1 ↔ ch < n := by omega
        rw [if_neg (fun h => hch h.1), ih1 ch]
        simp only [hlt]
    · intro ch
      simp only [processChannel]
      rw [getD_set_row, e1, e2]
      by_cases hch : n = ch
      · subst hch
        rw [if_pos (Nat.lt_succ_self n)]
        by_cases hl : n < ((List.range n).foldl (processChannel st sample) (data, delay)).2.length
        · rw [if_pos ⟨rfl, hl⟩]
        · rw [if_neg (fun h => hl h.2), e2]
          have hnil : delay.getD n [] = [] := by
            rw [← e2]; exact getD_nil_of_length_le _ _ (not_lt.mp hl)
          rw [hnil]
          unfold vecWrite
          split_ifs <;> rfl
      · have hlt : ch < n + 1 ↔ ch < n := by omega
        rw [if_neg (fun h => hch h.1), ih2 ch]
        simp only [hlt]

theorem processSample_spec (M : CMath α) (thresholdDb reductionAmount : α)
    (sb : Processor α × AudioBuffer α) (sample : Nat) :
    (processSample M thresholdDb reductionAmount sb sample).1.delayWritePos =
        (sb.1.delayWritePos + 1).tmod MAX_LOOKAHEAD_SAMPLES ∧
    (processSample M thresholdDb reductionAmount sb sample).1.lookaheadSamples =
        sb.1.lookaheadSamples ∧
    (processSample M thresholdDb reductionAmount sb sample).1.totalNumInputChannels =
        sb.1.totalNumInputChannels ∧
    (processSample M thresholdDb reductionAmount sb sample).2.numSamples = sb.2.numSamples ∧
    (∀ ch, (processSample M thresholdDb reductionAmount sb sample).2.data.getD ch [] =
      if ch < sb.1.totalNumInputChannels then (sb.2.data.getD ch []).set sample
        (vecRead (sb.1.delayBuffer.getD ch [])
            (delayReadPos sb.1.delayWritePos sb.1.lookaheadSamples) *
          blendGain
            (processSample M thresholdDb reductionAmount sb sample).1.currentGainReduction)
      else sb.2.data.getD ch []) ∧
    (∀ ch, (processSample M thresholdDb reductionAmount sb sample).1.delayBuffer.getD ch [] =
      if ch < sb.1.totalNumInputChannels then
        vecWrite (sb.1.delayBuffer.getD ch []) sb.1.delayWritePos (sb.2.getSample ch sample)
      else sb.1.delayBuffer.getD ch []) := by
  refine ⟨rfl, rfl, rfl, rfl, ?_, ?_⟩
  · intro ch
    exact (channelLoop_spec _ sample sb.2.data _ _).1 ch
  · intro ch
    exact (channelLoop_spec _ sample sb.2.data _ _).2 ch

theorem delayReadPos_eq (n : Nat) (L : Int) (h0 : 0 ≤ L) (h1 : L ≤ 512) :
    delayReadPos ((n % 512 : Nat) : Int) L = (((n + 512 - effectiveDelay L) % 512 : Nat) : Int) := by
  unfold delayReadPos MAX_LOOKAHEAD_SAMPLES effectiveDelay
  rw [Int.tmod_eq_emod (by omega) (by norm_num)]
  split_ifs with hL
  · omega
  · omega

theorem effectiveDelay_bounds (L : Int) (h0 : 0 ≤ L) (h1 : L ≤ 512) :
    1 ≤ effectiveDelay L ∧ effectiveDelay L ≤ 512 := by
  unfold effectiveDelay
  split_ifs with hL
  · omega
  · omega

theorem vecRead_natCast (row : List α) (m : Nat) : vecRead row (m : Int) = row.getD m 0 := by
  unfold vecRead
  rw [if_pos (Int.natCast_nonneg m), Int.toNat_natCast]

theorem vecWrite_natCast {β : Type} (row : List β) (m : Nat) (x : β) :
    vecWrite row (m : Int) x = row.set m x := by
  unfold vecWrite
  rw [if_pos (Int.natCast_nonneg m), Int.toNat_natCast]

theorem DelayLineInv.read {row : List α} {w : Int} {hist : List α}
    (h : DelayLineInv row w hist) (L : Int) (h0 : 0 ≤ L) (h1 : L ≤ 512) :
    vecRead row (delayReadPos w L) = delayedStream (effectiveDelay L) hist hist.length := by
  obtain ⟨_, hw, hslots⟩ := h
  rw [hw, delayReadPos_eq _ L h0 h1, vecRead_natCast]
  exact hslots _ (effectiveDelay_bounds L h0 h1).1 (effectiveDelay_bounds L h0 h1).2

theorem DelayLineInv.write {row : List α} {w : Int} {hist : List α}
    (h : DelayLineInv row w hist) (x : α) :
    DelayLineInv (vecWrite row w x) ((w + 1).tmod MAX_LOOKAHEAD_SAMPLES) (hist ++ [x]) := by
  obtain ⟨hl, hw, hslots⟩ := h
  have hlen : (hist ++ [x]).length = hist.length + 1 := by
    rw [List.length_append]; rfl
  rw [hw, vecWrite_natCast]
  refine ⟨by rw [List.length_set]; exact hl, ?_, ?_⟩
  · unfold MAX_LOOKAHEAD_SAMPLES
    rw [Int.tmod_eq_emod (by omega) (by norm_num), hlen]
    omega
  · intro d hd1 hd2
    rw [hlen, getD_set_row]
    by_cases hd : d = 1
    · subst hd
      have hidx : hist.length % 512 = (hist.length + 1 + 512 - 1) % 512 := by omega
      rw [if_pos ⟨hidx, by rw [hl]; omega⟩]
      unfold delayedStream
      rw [if_neg (by omega), List.getD_append_right _ _ _ _ (by omega)]
      have : hist.length + 1 - 1 - hist.length = 0 := by omega
      rw [this]
      rfl
    · have hne : ¬ (hist.length % 512 = (hist.length + 1 + 512 - d) % 512 ∧
          hist.length % 512 < row.length) := by
        intro hcon
        have := hcon.1
        omega
      rw [if_neg hne]
      have hidx : (hist.length + 1 + 512 - d) % 512 = (hist.length + 512 - (d - 1)) % 512 := by
        congr 1
        omega
      rw [hidx, hslots (d - 1) (by omega) (by omega)]
      unfold delayedStream
      by_cases hlt : hist.length < d - 1
      · rw [if_pos hlt, if_pos (by omega)]
      · rw [if_neg hlt, if_neg (by omega), List.getD_append _ _ _ _ (by omega)]
        congr 1
        omega

theorem delayLineInv_fresh : DelayLineInv (List.replicate 512 (0 : α)) 0 [] := by
  refine ⟨List.length_replicate _ _, rfl, ?_⟩
  intro d hd1 _
  unfold delayedStream
  rw [if_pos (by simpa using hd1)]
  exact getD_eq_zero_of_zero _ (fun x hx => (List.mem_replicate.1 hx).2) _

theorem targetGain_zero (envelopeDb triggerDb : α) : targetGain 0 envelopeDb triggerDb = 1 := by
  unfold targetGain
  split_ifs
  · simp only [zero_mul, sub_zero]
    exact max_eq_right (by norm_num)
  · rfl

theorem smoothGainStep_one (c : α) : smoothGainStep c 1 1 = 1 := by
  unfold smoothGainStep
  simp

theorem blendGain_one : blendGain (1 : α) = 1 := by
  unfold blendGain
  norm_num

theorem roundTripInv_preserved (M : CMath α) (L : Int) (n : Nat) :
    Preserved M (fun _ r => r = 0) (RoundTripInv L n) where
  params := by
    intro st h
    show st.reduction / 100 = 0
    rw [h.2.1, zero_div]
  setup := fun st buffer h => h
  step := by
    intro thresholdDb reductionAmount sb sample hq h
    obtain ⟨hg, hr, hL, hn⟩ := h
    refine ⟨?_, hr, hL, hn⟩
    show smoothGainStep _ (targetGain reductionAmount _ _) sb.1.currentGainReduction = 1
    rw [hq, targetGain_zero, hg, smoothGainStep_one]
  meters := fun st a b c h => h

theorem clearLoop_getD (ch : Nat) (channels : List Nat) (hne : ∀ c ∈ channels, c ≠ ch) :
    ∀ buffer : AudioBuffer α,
      (channels.foldl AudioBuffer.clear buffer).data.getD ch [] = buffer.data.getD ch [] ∧
      (channels.foldl AudioBuffer.clear buffer).numSamples = buffer.numSamples := by
  induction channels with
  | nil => intro b; exact ⟨rfl, rfl⟩
  | cons c rest ih =>
    intro b
    rw [List.foldl_cons]
    obtain ⟨h1, h2⟩ := ih (fun c' hc' => hne c' (List.mem_cons_of_mem _ hc')) (b.clear c)
    rw [h1, h2]
    refine ⟨?_, rfl⟩
    unfold AudioBuffer.clear
    simp only
    rw [getD_set_row, if_neg (fun h => hne c (List.mem_cons_self _ _) h.1)]

theorem blockSetup_channel (M : CMath α) (st : Processor α) (buffer : AudioBuffer α)
    (ch : Nat) (hch : ch < st.totalNumInputChannels) :
    (blockSetup M st buffer).2.data.getD ch [] = buffer.data.getD ch [] ∧
      (blockSetup M st buffer).2.numSamples = buffer.numSamples := by
  unfold blockSetup
  simp only
  apply clearLoop_getD
  intro c hc
  rw [List.mem_range'_1] at hc
  omega

theorem getD_append_take (hist input : List α) (k i : Nat) (hi : i < hist.length + k) :
    (hist ++ input.take k).getD i 0 = (hist ++ input).getD i 0 := by
  by_cases h : i < hist.length
  · rw [List.getD_append _ _ _ _ h, List.getD_append _ _ _ _ h]
  · rw [List.getD_append_right _ _ _ _ (not_lt.mp h), List.getD_append_right _ _ _ _ (not_lt.mp h),
      List.getD_eq_getElem?_getD, List.getD_eq_getElem?_getD, List.getElem?_take,
      if_pos (by omega)]

theorem delayedStream_take (D : Nat) (hD : 1 ≤ D) (hist input : List α) (k : Nat) :
    delayedStream D (hist ++ input.take k) (hist.length + k) =
      delayedStream D (hist ++ input) (hist.length + k) := by
  unfold delayedStream
  split_ifs
  · rfl
  · exact getD_append_take hist input k _ (by omega)

/-- The outputs of the first `k` samples of a block on one channel. -/
theorem sampleLoop_channel (M : CMath α) (st : Processor α) (buffer : AudioBuffer α)
    (L : Int) (n ch : Nat) (hist : List α)
    (hL0 : 0 ≤ L) (hL1 : L ≤ 512) (hch : ch < n)
    (hinv : RoundTripInv L n st)
    (hlen : (buffer.data.getD ch []).length = buffer.numSamples)
    (hdelay : DelayLineInv (st.delayBuffer.getD ch []) st.delayWritePos hist) :
    ∀ k, k ≤ buffer.numSamples →
      DelayLineInv ((sampleLoop M st buffer k).1.delayBuffer.getD ch [])
          (sampleLoop M st buffer k).1.delayWritePos
          (hist ++ (buffer.data.getD ch []).take k) ∧
        (sampleLoop M st buffer k).2.data.getD ch [] =
          (List.range k).map
              (fun i => delayedStream (effectiveDelay L) (hist ++ buffer.data.getD ch [])
                (hist.length + i)) ++
            (buffer.data.getD ch []).drop k := by
  intro k
  induction k with
  | zero =>
    intro _
    rw [sampleLoop_zero]
    refine ⟨?_, ?_⟩
    · rw [List.take_zero, List.append_nil]
      exact hdelay
    · rw [(blockSetup_channel M st buffer ch (by rw [hinv.2.2.2]; exact hch)).1]
      rfl
  | succ k ih =>
    intro hk
    obtain ⟨ihd, ihrow⟩ := ih (by omega)
    have hP := (roundTripInv_preserved M L n).sampleLoop st buffer hinv
    obtain ⟨_, _, hLk, hnk⟩ := hP k
    have hg1 := (hP (k + 1)).1
    rw [sampleLoop_succ] at hg1 ⊢
    obtain ⟨hw, _, _, _, hrow, hdl⟩ :=
      processSample_spec M st.threshold (st.reduction / 100) (sampleLoop M st buffer k) k
    have hklt : k < (buffer.data.getD ch []).length := by omega
    have hmaplen : ((List.range k).map
        (fun i => delayedStream (effectiveDelay L) (hist ++ buffer.data.getD ch [])
          (hist.length + i))).length = k := by
      rw [List.length_map, List.length_range]
    have hx : (sampleLoop M st buffer k).2.getSample ch k = (buffer.data.getD ch [])[k] := by
      unfold AudioBuffer.getSample
      rw [ihrow, List.getD_append_right _ _ _ _ (by rw [hmaplen]), hmaplen, Nat.sub_self,
        List.drop_eq_getElem_cons hklt]
      rfl
    have hhl : (hist ++ (buffer.data.getD ch []).take k).length = hist.length + k := by
      rw [List.length_append, List.length_take, min_eq_left (by omega)]
    refine ⟨?_, ?_⟩
    · rw [hdl ch, if_pos (by rw [hnk]; exact hch), hw, hx, List.take_succ,
        List.getElem?_eq_getElem hklt, ← List.append_assoc]
      exact ihd.write _
    · rw [hrow ch, if_pos (by rw [hnk]; exact hch), hg1, blendGain_one, mul_one, hLk,
        ihd.read L hL0 hL1, hhl,
        delayedStream_take _ (effectiveDelay_bounds L hL0 hL1).1, ihrow,
        List.set_append, if_neg (by rw [hmaplen]; exact lt_irrefl k), hmaplen, Nat.sub_self,
        List.drop_eq_getElem_cons hklt, List.range_succ, List.map_append, List.append_assoc]
      rfl

theorem processBlock_channel (M : CMath α) (st : Processor α) (buffer : AudioBuffer α)
    (L : Int) (n ch : Nat) (hist : List α)
    (hL0 : 0 ≤ L) (hL1 : L ≤ 512) (hch : ch < n)
    (hinv : RoundTripInv L n st)
    (hlen : (buffer.data.getD ch []).length = buffer.numSamples)
    (hdelay : DelayLineInv (st.delayBuffer.getD ch []) st.delayWritePos hist) :
    DelayLineInv ((processBlock M st buffer).1.delayBuffer.getD ch [])
        (processBlock M st buffer).1.delayWritePos (hist ++ buffer.data.getD ch []) ∧
      (processBlock M st buffer).2.data.getD ch [] =
        (List.range (buffer.data.getD ch []).length).map
          (fun i => delayedStream (effectiveDelay L) (hist ++ buffer.data.getD ch [])
            (hist.length + i)) := by
  obtain ⟨h1, h2⟩ := sampleLoop_channel M st buffer L n ch hist hL0 hL1 hch hinv hlen hdelay
    buffer.numSamples (le_refl _)
  rw [List.take_of_length_le (by omega)] at h1
  rw [List.drop_of_length_le (by omega), List.append_nil] at h2
  refine ⟨h1, ?_⟩
  rw [hlen]
  exact h2

theorem processBlocks_channel (M : CMath α) (L : Int) (n ch : Nat)
    (hL0 : 0 ≤ L) (hL1 : L ≤ 512) (hch : ch < n) (buffers : List (AudioBuffer α)) :
    ∀ (st : Processor α) (hist : List α),
      (∀ b ∈ buffers, (b.data.getD ch []).length = b.numSamples) →
      RoundTripInv L n st →
      DelayLineInv (st.delayBuffer.getD ch []) st.delayWritePos hist →
      channelStream ch (processBlocks M st buffers).2 =
        (List.range (channelStream ch buffers).length).map
          (fun i => delayedStream (effectiveDelay L) (hist ++ channelStream ch buffers)
            (hist.length + i)) := by
  induction buffers with
  | nil => intro st hist _ _ _; rfl
  | cons b rest ih =>
    intro st hist hwf hinv hdelay
    obtain ⟨h1, h2⟩ := processBlock_channel M st b L n ch hist hL0 hL1 hch hinv
      (hwf b (List.mem_cons_self _ _)) hdelay
    have hrest := ih (processBlock M st b).1 (hist ++ b.data.getD ch [])
      (fun b' hb' => hwf b' (List.mem_cons_of_mem _ hb'))
      ((roundTripInv_preserved M L n).processBlock st b hinv) h1
    have hD := (effectiveDelay_bounds L hL0 hL1).1
    simp only [PlosiveRemover.processBlocks]
    unfold channelStream at hrest ⊢
    rw [List.flatMap_cons, List.flatMap_cons, h2, hrest]
    simp only [List.length_append]
    rw [List.range_add, List.map_append, List.map_map]
    congr 1
    · apply List.map_congr_left
      intro i hi
      rw [List.mem_range] at hi
      unfold delayedStream
      split_ifs
      · rfl
      · rw [← List.append_assoc, List.getD_append (hist ++ b.data.getD ch []) _ _ _
          (by rw [List.length_append]; omega)]
    · apply List.map_congr_left
      intro i _
      simp only [Function.comp, List.length_append, List.append_assoc, Nat.add_assoc]

/-- The delay applied by the delay line at zero reduction: for a look-ahead between 0
and 512, from a state with unit gain, empty delay line and write cursor 0, the output
of every input channel over any sequence of well-formed blocks is the input delayed by
`effectiveDelay lookaheadSamples` samples. -/
theorem processBlocks_delay (M : CMath α) (st : Processor α) (buffers : List (AudioBuffer α))
    (ch : Nat) (hL0 : 0 ≤ st.lookaheadSamples) (hL1 : st.lookaheadSamples ≤ 512)
    (hch : ch < st.totalNumInputChannels)
    (hg : st.currentGainReduction = 1) (hr : st.reduction = 0)
    (hw : st.delayWritePos = 0) (hd : st.delayBuffer.getD ch [] = List.replicate 512 0)
    (hwf : ∀ b ∈ buffers, b.WellFormed st.totalNumInputChannels) :
    channelStream ch (processBlocks M st buffers).2 =
      (List.range (channelStream ch buffers).length).map
        (delayedStream (effectiveDelay st.lookaheadSamples) (channelStream ch buffers)) := by
  have h := processBlocks_channel M st.lookaheadSamples st.totalNumInputChannels ch hL0 hL1 hch
    buffers st [] (fun b hb => hwf b hb ch hch) ⟨hg, hr, rfl, rfl⟩
    (by rw [hd, hw]; exact delayLineInv_fresh)
  rw [h]
  apply List.map_congr_left
  intro i _
  simp only [List.nil_append, List.length_nil, Nat.zero_add]

end Delay

/-! ## Attack and release of the gain smoother -/

section Settle

variable {α : Type} [LinearOrderedField α]

theorem gainAfter_attack (c t : α) (hc1 : c ≤ 1 / 2) :
    ∀ (n : Nat) (g : α), t ≤ g → gainAfter c t n g = t + (g - t) * (1 - 2 * c) ^ n := by
  intro n
  induction n with
  | zero => intro g _; simp [gainAfter]
  | succ n ih =>
    intro g hg
    have hstep : smoothGainStep c t g = t + (g - t) * (1 - 2 * c) := by
      unfold smoothGainStep
      split_ifs with h
      · ring
      · have : g = t := le_antisymm (not_lt.mp h) hg
        rw [this]; ring
    have hle : t ≤ smoothGainStep c t g := by
      rw [hstep]
      nlinarith [mul_nonneg (sub_nonneg.2 hg) (show (0 : α) ≤ 1 - 2 * c by linarith)]
    rw [gainAfter, ih _ hle, hstep]
    ring

theorem gainAfter_release (c t : α) (hc1 : c ≤ 1) :
    ∀ (n : Nat) (g : α), g ≤ t → gainAfter c t n g = t - (t - g) * (1 - 0.3 * c) ^ n := by
  intro n
  induction n with
  | zero => intro g _; simp [gainAfter]
  | succ n ih =>
    intro g hg
    have hstep : smoothGainStep c t g = t - (t - g) * (1 - 0.3 * c) := by
      unfold smoothGainStep
      rw [if_neg (not_lt.mpr hg)]
      ring
    have hle : smoothGainStep c t g ≤ t := by
      rw [hstep]
      have h3 : (0 : α) ≤ 1 - 0.3 * c := by norm_num; nlinarith
      nlinarith [mul_nonneg (sub_nonneg.2 hg) h3]
    rw [gainAfter, ih _ hle, hstep]
    ring

theorem settle_attack_iff (c : ℝ) (hc1 : c ≤ 1 / 2) (n : Nat) :
    withinOnePercent (0.5 : ℝ) (gainAfter c 0.5 n 1) ↔ (1 - 2 * c) ^ n ≤ 0.01 := by
  have ha : (0 : ℝ) ≤ (1 - 2 * c) ^ n := pow_nonneg (by linarith) n
  rw [withinOnePercent, gainAfter_attack c 0.5 hc1 n 1 (by norm_num), abs_le]
  constructor
  · intro h; norm_num at h ⊢; linarith [h.2]
  · intro h; norm_num at h ⊢; constructor <;> linarith

theorem settle_release_iff (c : ℝ) (hc1 : c ≤ 1) (n : Nat) :
    withinOnePercent (1 : ℝ) (gainAfter c 1 n 0.5) ↔ (1 - 0.3 * c) ^ n ≤ 0.02 := by
  have hb : (0 : ℝ) ≤ (1 - 0.3 * c) ^ n := pow_nonneg (by norm_num; nlinarith) n
  rw [withinOnePercent, gainAfter_release c 1 hc1 n 0.5 (by norm_num), abs_le]
  constructor
  · intro h; norm_num at h ⊢; linarith [h.1]
  · intro h; norm_num at h ⊢; constructor <;> linarith

/-- The attack is faster than the release where the attack step does not overshoot:
for every `gainSmoothCoeff` `c` with `0 < c ≤ 1/2` there are a least
number `Na` of smoothing steps after which the gain, started at 1.0 with the target held
at 0.5, is within 1% of 0.5, and a least number `Nr` of steps after which the gain,
started at 0.5 with the target held at 1.0, is within 1% of 1.0; and `Na < Nr`. -/
theorem attack_faster_than_release (c : ℝ) (hc0 : 0 < c) (hc1 : c ≤ 1 / 2) :
    ∃ Na Nr : Nat, IsSettleTime c 0.5 1 Na ∧ IsSettleTime c 1 0.5 Nr ∧ Na < Nr := by
  classical
  have ha0 : (0 : ℝ) ≤ 1 - 2 * c := by linarith
  have ha1 : 1 - 2 * c < 1 := by linarith
  have hb0 : (0.85 : ℝ) ≤ 1 - 0.3 * c := by norm_num; linarith
  have hb1 : 1 - 0.3 * c < 1 := by norm_num; linarith
  have hb0' : (0 : ℝ) ≤ 1 - 0.3 * c := le_trans (by norm_num) hb0
  have wa : ∃ n, withinOnePercent (0.5 : ℝ) (gainAfter c 0.5 n 1) := by
    obtain ⟨n, hn⟩ := exists_pow_lt_of_lt_one (show (0 : ℝ) < 0.01 by norm_num) ha1
    exact ⟨n, (settle_attack_iff c hc1 n).2 hn.le⟩
  have wr : ∃ n, withinOnePercent (1 : ℝ) (gainAfter c 1 n 0.5) := by
    obtain ⟨n, hn⟩ := exists_pow_lt_of_lt_one (show (0 : ℝ) < 0.02 by norm_num) hb1
    exact ⟨n, (settle_release_iff c (by linarith) n).2 hn.le⟩
  refine ⟨Nat.find wa, Nat.find wr, ⟨Nat.find_spec wa, fun m hm => Nat.find_min wa hm⟩,
    ⟨Nat.find_spec wr, fun m hm => Nat.find_min wr hm⟩, ?_⟩
  by_contra hlt
  have hle : Nat.find wr ≤ Nat.find wa := not_lt.mp hlt
  have hr := (settle_release_iff c (by linarith) _).1 (Nat.find_spec wr)
  have hpos : 0 < Nat.find wa := by
    rcases Nat.eq_zero_or_pos (Nat.find wa) with h0 | h0
    · have := (settle_attack_iff c hc1 _).1 (Nat.find_spec wa)
      rw [h0] at this
      norm_num at this
    · exact h0
  obtain ⟨m, hm⟩ : ∃ m, Nat.find wa = m + 1 := ⟨Nat.find wa - 1, by omega⟩
  have hnot : ¬ (1 - 2 * c) ^ m ≤ 0.01 := fun h =>
    Nat.find_min wa (by omega : m < Nat.find wa) ((settle_attack_iff c hc1 m).2 h)
  have hsq : 1 - 2 * c ≤ (1 - 0.3 * c) ^ 2 := by norm_num; nlinarith [sq_nonneg c]
  have hpow : (1 - 2 * c) ^ m ≤ ((1 - 0.3 * c) ^ m) ^ 2 := by
    have h2 : ((1 - 0.3 * c) ^ m) ^ 2 = ((1 - 0.3 * c) ^ 2) ^ m := by
      rw [← pow_mul, ← pow_mul, Nat.mul_comm]
    rw [h2]
    exact pow_le_pow_left₀ ha0 hsq m
  have hbm0 : (0 : ℝ) ≤ (1 - 0.3 * c) ^ m := pow_nonneg hb0' m
  have hbm : (0.1 : ℝ) < (1 - 0.3 * c) ^ m := by
    by_contra hcon
    have : (1 - 0.3 * c) ^ m ≤ 0.1 := not_lt.mp hcon
    apply hnot
    calc (1 - 2 * c) ^ m ≤ ((1 - 0.3 * c) ^ m) ^ 2 := hpow
      _ ≤ 0.1 ^ 2 := pow_le_pow_left₀ hbm0 this 2
      _ = 0.01 := by norm_num
  have hbig : (0.02 : ℝ) < (1 - 0.3 * c) ^ Nat.find wa := by
    rw [hm, pow_succ]
    nlinarith
  have hmono : (1 - 0.3 * c) ^ Nat.find wa ≤ (1 - 0.3 * c) ^ Nat.find wr :=
    pow_le_pow_of_le_one hb0' hb1.le hle
  linarith

/-- The settle times at the upper end of the coefficient range: at
`gainSmoothCoeff = 1` the first
attack step overshoots the target 0.5 (the gain drops from 1 to 0), the gain then
recovers at the release rate, and the attack needs 14 steps while the release needs
only 11. -/
theorem attack_slower_at_coeff_one :
    IsSettleTime (1 : ℝ) 0.5 1 14 ∧ IsSettleTime (1 : ℝ) 1 0.5 11 ∧
      ¬ ∃ Na Nr : Nat,
        IsSettleTime (1 : ℝ) 0.5 1 Na ∧ IsSettleTime (1 : ℝ) 1 0.5 Nr ∧ Na < Nr := by
  have hatt : ∀ n : Nat, withinOnePercent (0.5 : ℝ) (gainAfter 1 0.5 (n + 1) 1) ↔
      (0.7 : ℝ) ^ n ≤ 0.01 := by
    intro n
    have hstep : smoothGainStep (1 : ℝ) 0.5 1 = 0 := by norm_num [smoothGainStep]
    have hp : (0 : ℝ) ≤ 0.7 ^ n := pow_nonneg (by norm_num) n
    rw [withinOnePercent, gainAfter, hstep,
      gainAfter_release 1 0.5 (by norm_num) n 0 (by norm_num), abs_le]
    norm_num
    constructor
    · intro h; linarith [h]
    · intro h; constructor <;> linarith
  have hrel : ∀ n : Nat, withinOnePercent (1 : ℝ) (gainAfter 1 1 n 0.5) ↔
      (0.7 : ℝ) ^ n ≤ 0.02 := by
    intro n
    have := settle_release_iff 1 (by norm_num) n
    norm_num at this ⊢
    exact this
  have hanti : ∀ m n : Nat, m ≤ n → (0.7 : ℝ) ^ n ≤ 0.7 ^ m := fun m n h =>
    pow_le_pow_of_le_one (by norm_num) (by norm_num) h
  have ha14 : IsSettleTime (1 : ℝ) 0.5 1 14 := by
    refine ⟨(hatt 13).2 (by norm_num), ?_⟩
    intro m hm
    rcases Nat.eq_zero_or_pos m with h0 | h0
    · rw [h0]; norm_num [withinOnePercent, gainAfter, abs_le]
    · obtain ⟨n, rfl⟩ : ∃ n, m = n + 1 := ⟨m - 1, by omega⟩
      rw [hatt n]
      have h12 := hanti n 12 (by omega)
      intro hcon
      norm_num at h12
      linarith
  have hr11 : IsSettleTime (1 : ℝ) 1 0.5 11 := by
    refine ⟨(hrel 11).2 (by norm_num), ?_⟩
    intro m hm
    rw [hrel m]
    have h10 := hanti m 10 (by omega)
    intro hcon
    norm_num at h10
    linarith
  refine ⟨ha14, hr11, ?_⟩
  rintro ⟨Na, Nr, ha, hr, hlt⟩
  have h1 : Nr ≤ 11 := by
    by_contra h
    exact hr.2 11 (by omega) hr11.1
  have h2 : 14 ≤ Na := by
    by_contra h
    exact ha14.2 Na (by omega) ha.1
  omega

/-- The attack is faster than the release at `gainSmoothCoeff = 1/2`. -/
theorem attack_faster_than_release_witness :
    ((0 : ℝ) < 1 / 2 ∧ (1 / 2 : ℝ) ≤ 1 / 2) ∧
      ∃ Na Nr : Nat,
        IsSettleTime (1 / 2 : ℝ) 0.5 1 Na ∧ IsSettleTime (1 / 2 : ℝ) 1 0.5 Nr ∧ Na < Nr :=
  ⟨by norm_num, attack_faster_than_release (1 / 2) (by norm_num) (by norm_num)⟩

end Settle

/-! ## Configuration: the look-ahead length -/

section Lookahead

variable {α : Type} [LinearOrderedField α] [FloorRing α]

theorem staticCastInt_of_nonneg (x : α) (h0 : 0 ≤ x) (h1 : x < 2147483648) :
    staticCastInt x = some ⌊x⌋ := by
  have hlo : (0 : Int) ≤ ⌊x⌋ := Int.floor_nonneg.2 h0
  have hhi : ⌊x⌋ < 2147483648 := Int.floor_lt.2 (by exact_mod_cast h1)
  unfold staticCastInt
  simp only [if_pos h0]
  rw [if_pos ⟨by omega, by omega⟩]

/-- C7 (amended): for every sample rate `≥ 0` for which `sampleRate * 0.005` is below
`2^31` (so that its conversion to `int` is defined), `prepareToPlay` returns and sets
`lookaheadSamples = min(floor(sampleRate * 0.005), MAX_LOOKAHEAD_SAMPLES)` with
`MAX_LOOKAHEAD_SAMPLES = 512`: the product is truncated, not rounded to the nearest
integer; the same value is the latency reported to the host. -/
theorem prepareToPlay_lookahead (M : CMath α) (st : Processor α) (sampleRate : α)
    (samplesPerBlock : Int) (h0 : 0 ≤ sampleRate) (h1 : sampleRate * 0.005 < 2147483648) :
    ∃ st', prepareToPlay M st sampleRate samplesPerBlock = some st' ∧
      st'.lookaheadSamples = min ⌊sampleRate * 0.005⌋ 512 ∧
      MAX_LOOKAHEAD_SAMPLES = 512 ∧
      st'.latencySamples = st'.lookaheadSamples := by
  have hx : (0 : α) ≤ sampleRate * 0.005 := mul_nonneg h0 (by norm_num)
  unfold prepareToPlay
  rw [staticCastInt_of_nonneg _ hx h1]
  exact ⟨_, rfl, rfl, rfl, rfl⟩

/-- C7 (amended) at a concrete input: 44100 Hz gives a look-ahead of 220 samples. -/
theorem prepareToPlay_lookahead_witness :
    ((0 : ℝ) ≤ 44100 ∧ (44100 : ℝ) * 0.005 < 2147483648) ∧
      ∃ st', prepareToPlay (CMath.mk Real.cos Real.sin Real.exp (Real.logb 10) Real.pi)
          ({} : Processor ℝ) 44100 512 = some st' ∧
        st'.lookaheadSamples = min ⌊(44100 : ℝ) * 0.005⌋ 512 ∧
        MAX_LOOKAHEAD_SAMPLES = 512 ∧
        st'.latencySamples = st'.lookaheadSamples :=
  ⟨by norm_num,
    prepareToPlay_lookahead (CMath.mk Real.cos Real.sin Real.exp (Real.logb 10) Real.pi)
      ({} : Processor ℝ) 44100 512 (by norm_num) (by norm_num)⟩

/-- C7, counterexample to the claim as stated: at 180 Hz `sampleRate * 0.005 = 0.9`,
`prepareToPlay` sets a look-ahead (and a reported latency) of 0 samples while rounding
to the nearest integer gives 1; at 44100 Hz the product is 220.5, the look-ahead is
220 and rounding gives 221. -/
theorem prepareToPlay_lookahead_not_rounded :
    ((prepareToPlay (CMath.mk Real.cos Real.sin Real.exp (Real.logb 10) Real.pi)
        ({} : Processor ℝ) 180 512).map (fun p => (p.lookaheadSamples, p.latencySamples))
        = some (0, 0) ∧
      min (round ((180 : ℝ) * 0.005)) 512 = 1) ∧
    ((prepareToPlay (CMath.mk Real.cos Real.sin Real.exp (Real.logb 10) Real.pi)
        ({} : Processor ℝ) 44100 512).map (fun p => (p.lookaheadSamples, p.latencySamples))
        = some (220, 220) ∧
      min (round ((44100 : ℝ) * 0.005)) 512 = 221) := by
  have f1 : ⌊(180 : ℝ) * 0.005⌋ = 0 := by rw [Int.floor_eq_iff]; norm_num
  have f2 : ⌊(44100 : ℝ) * 0.005⌋ = 220 := by rw [Int.floor_eq_iff]; norm_num
  have r1 : round ((180 : ℝ) * 0.005) = 1 := by
    rw [round_eq, Int.floor_eq_iff]; norm_num
  have r2 : round ((44100 : ℝ) * 0.005) = 221 := by
    rw [round_eq, Int.floor_eq_iff]; norm_num
  have c1 := staticCastInt_of_nonneg ((180 : ℝ) * 0.005) (by norm_num) (by norm_num)
  have c2 := staticCastInt_of_nonneg ((44100 : ℝ) * 0.005) (by norm_num) (by norm_num)
  rw [f1] at c1
  rw [f2] at c2
  refine ⟨⟨?_, by rw [r1]; rfl⟩, ⟨?_, by rw [r2]; rfl⟩⟩
  · unfold prepareToPlay
    rw [c1]
    rfl
  · unfold prepareToPlay
    rw [c2]
    rfl

end Lookahead

/-! ## Configuration, the round trip and the meters -/

section Configure

variable {α : Type} [LinearOrderedField α] [FloorRing α]

theorem vectorResize_getD {β : Type} (l : List β) (n ch : Nat) (fill : β) (hch : ch < n) :
    (vectorResize l n fill).getD ch fill = l.getD ch fill := by
  unfold vectorResize
  rw [List.getD_eq_getElem?_getD, List.getD_eq_getElem?_getD]
  split_ifs with h
  · rw [List.getElem?_take, if_pos hch]
  · rw [List.getElem?_append, List.getElem?_replicate]
    by_cases hl : ch < l.length
    · rw [if_pos hl]
    · rw [if_neg hl, List.getElem?_eq_none (not_lt.mp hl), if_pos (by omega)]
      rfl

theorem vectorResize_length {β : Type} (l : List β) (n : Nat) (fill : β) :
    (vectorResize l n fill).length = n := by
  unfold vectorResize
  split_ifs with h
  · rw [List.length_take]; omega
  · rw [List.length_append, List.length_replicate]; omega

theorem vectorResize_of_length_eq {β : Type} (l : List β) (n : Nat) (fill : β)
    (h : l.length = n) : vectorResize l n fill = l := by
  unfold vectorResize
  rw [if_pos (by omega), List.take_of_length_le (by omega)]

theorem map_getD_resize {β : Type} (l : List (List β)) (n ch : Nat) (f : List β → List β)
    (hch : ch < n) :
    ((vectorResize l n []).map f).getD ch [] = f (l.getD ch []) := by
  rw [List.getD_eq_getElem?_getD, List.getElem?_map,
    List.getElem?_eq_getElem (by rw [vectorResize_length]; exact hch)]
  have h := vectorResize_getD l n ch [] hch
  rw [List.getD_eq_getElem?_getD,
    List.getElem?_eq_getElem (by rw [vectorResize_length]; exact hch)] at h
  simp only [Option.map_some', Option.getD_some] at h ⊢
  rw [h]

/-- What `prepareToPlay` establishes, for a sample rate whose product with 0.005 converts
to the `int` value `n`: the look-ahead and the reported latency are `min n 512`, the
detection filter state, the envelopes and the average level are 0, both gains are 1, the
write cursor is 0, and each channel of the delay buffer is the old channel resized to 512
slots (old samples are kept, only new slots are 0). -/
theorem prepareToPlay_spec (M : CMath α) (st : Processor α) (sampleRate : α)
    (samplesPerBlock n : Int) (hn : staticCastInt (sampleRate * 0.005) = some n) :
    ∃ st', prepareToPlay M st sampleRate samplesPerBlock = some st' ∧
      (st'.lookaheadSamples = min n 512 ∧ st'.latencySamples = min n 512) ∧
      (st'.detectionLPF.z1 = 0 ∧ st'.detectionLPF.z2 = 0) ∧
      (st'.fastEnvelope = 0 ∧ st'.slowEnvelope = 0 ∧ st'.avgLevel = 0) ∧
      (st'.currentGainReduction = 1 ∧ st'.targetGainReduction = 1) ∧
      st'.delayWritePos = 0 ∧
      (st'.totalNumInputChannels = st.totalNumInputChannels ∧
        st'.totalNumOutputChannels = st.totalNumOutputChannels ∧
        st'.threshold = st.threshold ∧ st'.reduction = st.reduction ∧
        st'.frequency = st.frequency) ∧
      st'.delayBuffer.length = st.totalNumInputChannels ∧
      ∀ ch, ch < st.totalNumInputChannels →
        st'.delayBuffer.getD ch [] = vectorResize (st.delayBuffer.getD ch []) 512 0 := by
  unfold prepareToPlay
  rw [hn]
  refine ⟨_, rfl, ⟨rfl, rfl⟩, ⟨rfl, rfl⟩, ⟨rfl, rfl, rfl⟩, ⟨rfl, rfl⟩, rfl,
    ⟨rfl, rfl, rfl, rfl, rfl⟩, ?_, ?_⟩
  · show ((vectorResize st.delayBuffer st.totalNumInputChannels []).map _).length = _
    rw [List.length_map, vectorResize_length]
  · intro ch hch
    exact map_getD_resize st.delayBuffer st.totalNumInputChannels ch _ hch

theorem getD_map_range {β : Type} (f : Nat → β) (n i : Nat) (d : β) (hi : i < n) :
    ((List.range n).map f).getD i d = f i := by
  rw [List.getD_eq_getElem?_getD, List.getElem?_map, List.getElem?_range hi]
  rfl

/-- C1, the failing input: a mono processor configured at 100 Hz gets
`lookaheadSamples = 0` and reports a latency of 0 samples; with the reduction parameter
at 0, a block of 513 samples holding an impulse at index 0 comes out with 0 at index 0
and the impulse at index 512: the delay is 512 samples, not `lookaheadSamples`. -/
theorem lookahead_zero_delays_by_512 :
    ∃ st, prepareToPlay (CMath.mk Real.cos Real.sin Real.exp (Real.logb 10) Real.pi)
        { reduction := 0, totalNumInputChannels := 1, totalNumOutputChannels := 1 } 100 512
        = some st ∧
      st.lookaheadSamples = 0 ∧ st.latencySamples = 0 ∧
      (channelStream 0 (processBlocks (CMath.mk Real.cos Real.sin Real.exp (Real.logb 10) Real.pi)
        st [⟨513, [1 :: List.replicate 512 0]⟩]).2).getD 0 0 = 0 ∧
      (channelStream 0 (processBlocks (CMath.mk Real.cos Real.sin Real.exp (Real.logb 10) Real.pi)
        st [⟨513, [1 :: List.replicate 512 0]⟩]).2).getD 512 0 = 1 := by
  have f1 : ⌊(100 : ℝ) * 0.005⌋ = 0 := by rw [Int.floor_eq_iff]; norm_num
  have c1 := staticCastInt_of_nonneg ((100 : ℝ) * 0.005) (by norm_num) (by norm_num)
  rw [f1] at c1
  obtain ⟨st, hst, ⟨hL, hlat⟩, _, _, ⟨hg, _⟩, hw, ⟨hn, _, _, hr, _⟩, _, hrow⟩ :=
    prepareToPlay_spec (CMath.mk Real.cos Real.sin Real.exp (Real.logb 10) Real.pi)
      { reduction := 0, totalNumInputChannels := 1, totalNumOutputChannels := 1 } 100 512 0 c1
  have hL0 : st.lookaheadSamples = 0 := by rw [hL]; rfl
  have hn1 : st.totalNumInputChannels = 1 := hn
  have hd : st.delayBuffer.getD 0 [] = List.replicate 512 0 := by
    rw [hrow 0 (by decide)]
    rfl
  have hstream : channelStream 0 [(⟨513, [1 :: List.replicate 512 0]⟩ : AudioBuffer ℝ)] =
      1 :: List.replicate 512 0 := by
    unfold channelStream
    rw [List.flatMap_cons, List.flatMap_nil, List.append_nil]
    rfl
  have key := processBlocks_delay (CMath.mk Real.cos Real.sin Real.exp (Real.logb 10) Real.pi)
    st [⟨513, [1 :: List.replicate 512 0]⟩] 0 (by rw [hL0]) (by rw [hL0]; norm_num)
    (by rw [hn1]; norm_num) hg hr hw hd
    (by
      intro b hb channel hc
      rw [List.mem_singleton] at hb
      rw [hn1] at hc
      have h0 : channel = 0 := by omega
      rw [hb, h0]
      show (1 :: List.replicate 512 (0 : ℝ)).length = 513
      rw [List.length_cons, List.length_replicate])
  rw [hstream, hL0] at key
  have hlen : (1 :: List.replicate 512 (0 : ℝ)).length = 513 := by
    rw [List.length_cons, List.length_replicate]
  rw [hlen] at key
  refine ⟨st, hst, hL0, by rw [hlat]; rfl, ?_, ?_⟩
  · rw [key, getD_map_range _ _ _ _ (by norm_num)]
    rfl
  · rw [key, getD_map_range _ _ _ _ (by norm_num)]
    unfold delayedStream effectiveDelay
    rw [if_pos rfl, if_neg (lt_irrefl _), Nat.sub_self]
    rfl

/-- C1 for a look-ahead of at least one sample: from a state with unit gain, empty
delay line and write cursor 0, with the reduction parameter at 0 and
`1 ≤ lookaheadSamples ≤ 512`, for every sensitivity and frequency, every input channel
and every sequence of well-formed blocks, output sample `n` is input sample
`n - lookaheadSamples` for `n ≥ lookaheadSamples` and 0 before. -/
theorem processBlocks_roundtrip {α : Type} [LinearOrderedField α] (M : CMath α)
    (st : Processor α) (buffers : List (AudioBuffer α)) (ch n : Nat)
    (hL0 : 1 ≤ st.lookaheadSamples) (hL1 : st.lookaheadSamples ≤ 512)
    (hch : ch < st.totalNumInputChannels)
    (hg : st.currentGainReduction = 1) (hr : st.reduction = 0)
    (hw : st.delayWritePos = 0) (hd : st.delayBuffer.getD ch [] = List.replicate 512 0)
    (hwf : ∀ b ∈ buffers, b.WellFormed st.totalNumInputChannels)
    (hn : n < (channelStream ch buffers).length) :
    (channelStream ch (processBlocks M st buffers).2).length =
        (channelStream ch buffers).length ∧
      (channelStream ch (processBlocks M st buffers).2).getD n 0 =
        if (n : Int) < st.lookaheadSamples then 0
        else (channelStream ch buffers).getD (n - st.lookaheadSamples.toNat) 0 := by
  have key := processBlocks_delay M st buffers ch (by omega) hL1 hch hg hr hw hd hwf
  have hD : effectiveDelay st.lookaheadSamples = st.lookaheadSamples.toNat := by
    unfold effectiveDelay
    rw [if_neg (by omega)]
  rw [key, hD]
  refine ⟨by rw [List.length_map, List.length_range], ?_⟩
  rw [getD_map_range _ _ _ _ hn]
  unfold delayedStream
  by_cases h : n < st.lookaheadSamples.toNat
  · rw [if_pos h, if_pos (by omega)]
  · rw [if_neg h, if_neg (by omega)]

theorem channels_preserved {α : Type} [LinearOrderedField α] (M : CMath α) (n : Nat) :
    Preserved M (fun _ _ => True) (fun st => st.totalNumInputChannels = n) where
  params := fun _ _ => trivial
  setup := fun _ _ h => h
  step := fun _ _ _ _ _ h => h
  meters := fun _ _ _ _ h => h

/-- The meters published by `processBlock`: the input-level meter is the magnitude of
the sample the buffer holds after the sample loop (the processed sample) at index
`numSamples / 2` of channel 0; the detection meter is the fast envelope and the
gain-reduction meter is `1 - currentGainReduction` after the last sample. -/
theorem processBlock_meters {α : Type} [LinearOrderedField α] (M : CMath α)
    (st : Processor α) (buffer : AudioBuffer α) :
    (processBlock M st buffer).1.meterInputLevel =
        |(processBlock M st buffer).2.getSample 0 (buffer.numSamples / 2)| ∧
      (processBlock M st buffer).1.meterDetectionLevel =
        (sampleLoop M st buffer buffer.numSamples).1.fastEnvelope ∧
      (processBlock M st buffer).1.meterGainReduction =
        1 - (sampleLoop M st buffer buffer.numSamples).1.currentGainReduction :=
  ⟨rfl, rfl, rfl⟩

/-- The first sample of a block on channel 0 of a processor with one input channel or
more: the buffer receives the delayed sample times the blended gain and the delay line
receives the input sample at the write cursor. -/
theorem sampleLoop_one {α : Type} [LinearOrderedField α] (M : CMath α) (st : Processor α)
    (buffer : AudioBuffer α) (h : 0 < st.totalNumInputChannels) :
    (sampleLoop M st buffer 1).2.data.getD 0 [] =
        (buffer.data.getD 0 []).set 0
          (vecRead (st.delayBuffer.getD 0 []) (delayReadPos st.delayWritePos st.lookaheadSamples) *
            blendGain (sampleLoop M st buffer 1).1.currentGainReduction) ∧
      (sampleLoop M st buffer 1).1.delayBuffer.getD 0 [] =
        vecWrite (st.delayBuffer.getD 0 []) st.delayWritePos (buffer.getSample 0 0) := by
  obtain ⟨_, _, _, _, hrow, hdl⟩ :=
    processSample_spec M st.threshold (st.reduction / 100) (sampleLoop M st buffer 0) 0
  have hb := (blockSetup_channel M st buffer 0 h).1
  have h' : 0 < (blockSetup M st buffer).1.totalNumInputChannels := h
  rw [sampleLoop_succ]
  rw [sampleLoop_zero] at hrow hdl ⊢
  refine ⟨?_, ?_⟩
  · rw [hrow 0, if_pos h', hb]
    rfl
  · rw [hdl 0, if_pos h']
    unfold AudioBuffer.getSample
    rw [hb]
    rfl

/-- C9, the failing input: a mono processor configured at 44100 Hz processes a block
of one sample of value 1; the published input-level meter is 0 (the magnitude of the
processed sample, which is the delayed sample read from the empty delay line), while the
magnitude of the block's input sample at index `numSamples / 2 = 0` is 1. -/
theorem meterInputLevel_reads_processed_sample :
    ∃ st, prepareToPlay (CMath.mk Real.cos Real.sin Real.exp (Real.logb 10) Real.pi)
        { totalNumInputChannels := 1, totalNumOutputChannels := 1 } 44100 512 = some st ∧
      (processBlock (CMath.mk Real.cos Real.sin Real.exp (Real.logb 10) Real.pi) st
        ⟨1, [[1]]⟩).1.meterInputLevel = 0 ∧
      |(⟨1, [[1]]⟩ : AudioBuffer ℝ).getSample 0 (1 / 2)| = 1 := by
  have f1 : ⌊(44100 : ℝ) * 0.005⌋ = 220 := by rw [Int.floor_eq_iff]; norm_num
  have c1 := staticCastInt_of_nonneg ((44100 : ℝ) * 0.005) (by norm_num) (by norm_num)
  rw [f1] at c1
  obtain ⟨st, hst, _, _, _, _, hw, ⟨hn, _⟩, _, hrow⟩ :=
    prepareToPlay_spec (CMath.mk Real.cos Real.sin Real.exp (Real.logb 10) Real.pi)
      { totalNumInputChannels := 1, totalNumOutputChannels := 1 } 44100 512 220 c1
  have hn1 : st.totalNumInputChannels = 1 := hn
  have hd : st.delayBuffer.getD 0 [] = List.replicate 512 0 := by
    rw [hrow 0 (by decide)]
    rfl
  refine ⟨st, hst, ?_, ?_⟩
  · rw [(processBlock_meters _ st ⟨1, [[1]]⟩).1]
    show |((sampleLoop _ st ⟨1, [[1]]⟩ 1).2.data.getD 0 []).getD 0 0| = 0
    rw [(sampleLoop_one _ st ⟨1, [[1]]⟩ (by rw [hn1]; norm_num)).1, hd,
      vecRead_zero _ (fun x hx => (List.mem_replicate.1 hx).2), zero_mul]
    simp
  · simp [AudioBuffer.getSample]

/-- C8, the failing input: a mono processor is configured at 44100 Hz, processes a
block of one sample of value 1 and is configured again at 44100 Hz without
`releaseResources` in between; slot 0 of the delay buffer still holds 1. -/
theorem prepareToPlay_keeps_delay_samples :
    ∃ st1 st2, prepareToPlay (CMath.mk Real.cos Real.sin Real.exp (Real.logb 10) Real.pi)
        { totalNumInputChannels := 1, totalNumOutputChannels := 1 } 44100 512 = some st1 ∧
      prepareToPlay (CMath.mk Real.cos Real.sin Real.exp (Real.logb 10) Real.pi)
        (processBlock (CMath.mk Real.cos Real.sin Real.exp (Real.logb 10) Real.pi) st1
          ⟨1, [[1]]⟩).1 44100 512 = some st2 ∧
      (st2.delayBuffer.getD 0 []).getD 0 0 = 1 := by
  have f1 : ⌊(44100 : ℝ) * 0.005⌋ = 220 := by rw [Int.floor_eq_iff]; norm_num
  have c1 := staticCastInt_of_nonneg ((44100 : ℝ) * 0.005) (by norm_num) (by norm_num)
  rw [f1] at c1
  obtain ⟨st1, hst1, _, _, _, _, hw, ⟨hn, _⟩, _, hrow⟩ :=
    prepareToPlay_spec (CMath.mk Real.cos Real.sin Real.exp (Real.logb 10) Real.pi)
      { totalNumInputChannels := 1, totalNumOutputChannels := 1 } 44100 512 220 c1
  have hn1 : st1.totalNumInputChannels = 1 := hn
  have hd : st1.delayBuffer.getD 0 [] = List.replicate 512 0 := by
    rw [hrow 0 (by decide)]
    rfl
  have hn2 : (processBlock (CMath.mk Real.cos Real.sin Real.exp (Real.logb 10) Real.pi) st1
      ⟨1, [[1]]⟩).1.totalNumInputChannels = 1 :=
    (channels_preserved _ 1).processBlock st1 _ hn1
  have hd2 : (processBlock (CMath.mk Real.cos Real.sin Real.exp (Real.logb 10) Real.pi) st1
      ⟨1, [[1]]⟩).1.delayBuffer.getD 0 [] = (List.replicate 512 0).set 0 1 := by
    show (sampleLoop _ st1 ⟨1, [[1]]⟩ 1).1.delayBuffer.getD 0 [] = _
    rw [(sampleLoop_one _ st1 ⟨1, [[1]]⟩ (by rw [hn1]; norm_num)).2, hd, hw]
    rfl
  obtain ⟨st2, hst2, _, _, _, _, _, _, _, hrow2⟩ :=
    prepareToPlay_spec (CMath.mk Real.cos Real.sin Real.exp (Real.logb 10) Real.pi)
      (processBlock (CMath.mk Real.cos Real.sin Real.exp (Real.logb 10) Real.pi) st1
        ⟨1, [[1]]⟩).1 44100 512 220 c1
  refine ⟨st1, st2, hst1, hst2, ?_⟩
  rw [hrow2 0 (by rw [hn2]; norm_num), hd2,
    vectorResize_of_length_eq _ _ _ (by rw [List.length_set, List.length_replicate]),
    getD_set_row, if_pos ⟨rfl, by rw [List.length_replicate]; norm_num⟩]

end Configure

/-! ## The smoothed gain below the floor -/

section Undershoot

theorem exp_neg_le_inv (x : ℝ) (hx : 0 ≤ x) : Real.exp (-x) ≤ 1 / (1 + x) := by
  have h1 : 1 + x ≤ Real.exp x := by linarith [Real.add_one_le_exp x]
  rw [Real.exp_neg, ← one_div]
  exact one_div_le_one_div_of_le (by linarith) h1

theorem targetGain_full_reduction {α : Type} [LinearOrderedField α] (envelopeDb triggerDb : α)
    (h1 : triggerDb + 6 ≤ envelopeDb) (h2 : -40 < envelopeDb) :
    targetGain 1 envelopeDb triggerDb = 0.05 := by
  have hc : envelopeDb > triggerDb ∧ envelopeDb > -40 := ⟨by linarith, h2⟩
  have hr : (1 : α) ≤ (envelopeDb - triggerDb) / 6 := by
    rw [le_div_iff₀ (by norm_num)]
    linarith
  unfold targetGain
  rw [if_pos hc]
  simp only
  rw [min_eq_left hr]
  norm_num

/-- The gains after the first sample of a block, in terms of the state before the
block. -/
theorem sampleLoop_one_gain {α : Type} [LinearOrderedField α] (M : CMath α)
    (st : Processor α) (buffer : AudioBuffer α) :
    (sampleLoop M st buffer 1).1.targetGainReduction =
        targetGain (st.reduction / 100)
          (toDb M (envelopeUpdate st.fastAttack st.fastRelease st.fastEnvelope
            |((calculateBiquadLPF M st.currentSampleRate st.detectionLPF (st.frequency * 1.5)
              0.5).process
              ((List.range st.totalNumInputChannels).foldl
                (fun acc channel => acc + (blockSetup M st buffer).2.getSample channel 0) 0 /
                (st.totalNumInputChannels : α))).1|))
          (triggerThresholdDb
            (toDb M (avgLevelUpdate st.avgLevelCoeff st.avgLevel
              |((calculateBiquadLPF M st.currentSampleRate st.detectionLPF (st.frequency * 1.5)
                0.5).process
                ((List.range st.totalNumInputChannels).foldl
                  (fun acc channel => acc + (blockSetup M st buffer).2.getSample channel 0) 0 /
                  (st.totalNumInputChannels : α))).1|))
            st.threshold) ∧
      (sampleLoop M st buffer 1).1.currentGainReduction =
        smoothGainStep st.gainSmoothCoeff (sampleLoop M st buffer 1).1.targetGainReduction
          st.currentGainReduction := by
  rw [sampleLoop_succ, sampleLoop_zero]
  exact ⟨rfl, rfl⟩

theorem prepareToPlay_coefficients {α : Type} [LinearOrderedField α] [FloorRing α]
    (M : CMath α) (st : Processor α) (sampleRate : α) (samplesPerBlock n : Int)
    (hn : staticCastInt (sampleRate * 0.005) = some n) :
    ∃ st', prepareToPlay M st sampleRate samplesPerBlock = some st' ∧
      st'.currentSampleRate = sampleRate ∧
      st'.fastAttack = 1 - M.exp (-1 / (sampleRate * 0.001)) ∧
      st'.fastRelease = 1 - M.exp (-1 / (sampleRate * 0.030)) ∧
      st'.slowAttack = 1 - M.exp (-1 / (sampleRate * 0.020)) ∧
      st'.slowRelease = 1 - M.exp (-1 / (sampleRate * 0.100)) ∧
      st'.gainSmoothCoeff = 1 - M.exp (-1 / (sampleRate * 0.003)) ∧
      st'.avgLevelCoeff = 1 - M.exp (-1 / (sampleRate * 0.5)) := by
  unfold prepareToPlay
  rw [hn]
  exact ⟨_, rfl, rfl, rfl, rfl, rfl, rfl, rfl, rfl⟩

/-- The coefficients `prepareToPlay` computes for a sample rate `> 0` lie strictly
between 0 and 1: each is `1 - exp(-1 / (sampleRate * t))` for a time constant `t > 0`. -/
theorem prepareToPlay_coefficient_range (st st' : Processor ℝ) (sampleRate : ℝ)
    (samplesPerBlock : Int) (hsr : 0 < sampleRate)
    (h : prepareToPlay
          (CMath.mk Real.cos Real.sin Real.exp (Real.logb 10) Real.pi) st sampleRate samplesPerBlock = some st') :
    (0 < st'.fastAttack ∧ st'.fastAttack < 1) ∧ (0 < st'.fastRelease ∧ st'.fastRelease < 1) ∧
      (0 < st'.slowAttack ∧ st'.slowAttack < 1) ∧ (0 < st'.slowRelease ∧ st'.slowRelease < 1) ∧
      (0 < st'.gainSmoothCoeff ∧ st'.gainSmoothCoeff < 1) ∧
      (0 < st'.avgLevelCoeff ∧ st'.avgLevelCoeff < 1) := by
  have key : ∀ t : ℝ, 0 < t →
      0 < 1 - Real.exp (-1 / (sampleRate * t)) ∧ 1 - Real.exp (-1 / (sampleRate * t)) < 1 := by
    intro t ht
    have hneg : -1 / (sampleRate * t) < 0 := div_neg_of_neg_of_pos (by norm_num) (by positivity)
    have h1 := Real.exp_lt_one_iff.2 hneg
    have h2 := Real.exp_pos (-1 / (sampleRate * t))
    constructor <;> linarith
  rcases hn : staticCastInt (sampleRate * 0.005) with _ | n
  · unfold prepareToPlay at h
    rw [hn] at h
    exact absurd h (by simp)
  · obtain ⟨st2, hst2, _, hfa, hfr, hsa, hsr', hgc, hac⟩ :=
      prepareToPlay_coefficients
            (CMath.mk Real.cos Real.sin Real.exp (Real.logb 10) Real.pi) st sampleRate samplesPerBlock n hn
    have hsame : st2 = st' := Option.some.inj (hst2.symm.trans h)
    rw [hsame] at hfa hfr hsa hsr' hgc hac
    rw [hfa, hfr, hsa, hsr', hgc, hac]
    exact ⟨key _ (by norm_num), key _ (by norm_num), key _ (by norm_num), key _ (by norm_num),
      key _ (by norm_num), key _ (by norm_num)⟩

theorem coefficients_at_100 :
    (10 / 11 ≤ 1 - Real.exp (-1 / (100 * 0.001)) ∧
      1 / 51 ≤ 1 - Real.exp (-1 / (100 * 0.5)) ∧ 1 - Real.exp (-1 / (100 * 0.5)) ≤ 1 / 50) ∧
    10 / 13 ≤ 1 - Real.exp (-1 / (100 * 0.003)) ∧ 1 - Real.exp (-1 / (100 * 0.003)) ≤ 1 := by
  have e10 : Real.exp (-1 / (100 * 0.001)) ≤ 1 / 11 := by
    have := exp_neg_le_inv 10 (by norm_num)
    norm_num at this ⊢
    exact this
  have e3 : Real.exp (-1 / (100 * 0.003)) ≤ 3 / 13 := by
    have := exp_neg_le_inv (10 / 3) (by norm_num)
    norm_num at this ⊢
    exact this
  have e3' : 0 < Real.exp (-1 / (100 * 0.003)) := Real.exp_pos _
  have e50 : Real.exp (-1 / (100 * 0.5)) ≤ 50 / 51 := by
    have := exp_neg_le_inv (1 / 50) (by norm_num)
    norm_num at this ⊢
    exact this
  have e50' : 1 - 1 / 50 ≤ Real.exp (-1 / (100 * 0.5)) := by
    have := Real.add_one_le_exp (-1 / 50)
    norm_num at this ⊢
    exact this
  refine ⟨⟨?_, ?_, ?_⟩, ?_, ?_⟩ <;> linarith

theorem trigger_fires_fully (fa ac : ℝ) (hfa : 10 / 11 ≤ fa) (hac0 : 1 / 51 ≤ ac)
    (hac1 : ac ≤ 1 / 50) :
    targetGain 1 (toDb
          (CMath.mk Real.cos Real.sin Real.exp (Real.logb 10) Real.pi) fa) (triggerThresholdDb (toDb
          (CMath.mk Real.cos Real.sin Real.exp (Real.logb 10) Real.pi) ac) 24) = 0.05 := by
  have hlog10 : Real.logb 10 (1 / 10) = -1 := by
    rw [one_div, Real.logb_inv, Real.logb_self_eq_one (by norm_num)]
  have henv : -20 ≤ toDb (CMath.mk Real.cos Real.sin Real.exp (Real.logb 10) Real.pi) fa := by
    unfold toDb
    rw [if_pos (by linarith)]
    show -20 ≤ 20 * Real.logb 10 fa
    have := Real.logb_le_logb_of_le (b := 10) (by norm_num) (by norm_num : (0 : ℝ) < 1 / 10)
      (by linarith : (1 : ℝ) / 10 ≤ fa)
    rw [hlog10] at this
    linarith
  have hexc : toDb
        (CMath.mk Real.cos Real.sin Real.exp (Real.logb 10) Real.pi) ac + 20 ≤ toDb
        (CMath.mk Real.cos Real.sin Real.exp (Real.logb 10) Real.pi) fa := by
    unfold toDb
    rw [if_pos (by linarith), if_pos (by linarith)]
    show 20 * Real.logb 10 ac + 20 ≤ 20 * Real.logb 10 fa
    have h1 : Real.logb 10 (10 * ac) = 1 + Real.logb 10 ac := by
      rw [Real.logb_mul (by norm_num) (by linarith), Real.logb_self_eq_one (by norm_num)]
    have h2 := Real.logb_le_logb_of_le (b := 10) (by norm_num)
      (by linarith : (0 : ℝ) < 10 * ac) (by linarith : 10 * ac ≤ fa)
    rw [h1] at h2
    linarith
  apply targetGain_full_reduction
  · unfold triggerThresholdDb
    linarith
  · linarith

theorem detection_unit_response (f : BiquadFilter ℝ) (hz1 : f.z1 = 0) (hz2 : f.z2 = 0) :
    ((calculateBiquadLPF
          (CMath.mk Real.cos Real.sin Real.exp (Real.logb 10) Real.pi) 100 f (100 * 1.5) 0.5).process 1).1 = 1 := by
  have hw0 : 2 * Real.pi * ((100 : ℝ) * 1.5) / 100 = Real.pi + 2 * Real.pi := by ring
  have hcos : Real.cos (2 * Real.pi * ((100 : ℝ) * 1.5) / 100) = -1 := by
    rw [hw0, Real.cos_add_two_pi, Real.cos_pi]
  have hsin : Real.sin (2 * Real.pi * ((100 : ℝ) * 1.5) / 100) = 0 := by
    rw [hw0, Real.sin_add_two_pi, Real.sin_pi]
  simp only [BiquadFilter.process, calculateBiquadLPF, hcos, hsin, hz1, hz2]
  norm_num

/-- C3, the failing input: a mono processor with sensitivity 24,
reduction 100 and frequency 100 is configured at 100 Hz, which sets
`gainSmoothCoeff = 1 - exp(-10/3)`, a value in `(0, 1]` above 1/2, and
`currentGainReduction = 1`; after the first sample of a block holding the sample 1 the
trigger has fired with `targetGainReduction = 0.05` and the attack step
`gainSmoothCoeff * 2 * (target - current)` has carried `currentGainReduction` below 0. -/
theorem gain_undershoots_floor :
    ∃ st, prepareToPlay (CMath.mk Real.cos Real.sin Real.exp (Real.logb 10) Real.pi)
        { threshold := 24, reduction := 100, frequency := 100,
          totalNumInputChannels := 1, totalNumOutputChannels := 1 } 100 512 = some st ∧
      (0 < st.gainSmoothCoeff ∧ st.gainSmoothCoeff ≤ 1) ∧
      st.currentGainReduction = 1 ∧
      (sampleLoop
            (CMath.mk Real.cos Real.sin Real.exp (Real.logb 10) Real.pi) st ⟨1, [[1]]⟩ 1).1.targetGainReduction = 0.05 ∧
      (sampleLoop
            (CMath.mk Real.cos Real.sin Real.exp (Real.logb 10) Real.pi) st ⟨1, [[1]]⟩ 1).1.currentGainReduction < 0 := by
  have f1 : ⌊(100 : ℝ) * 0.005⌋ = 0 := by rw [Int.floor_eq_iff]; norm_num
  have c1 := staticCastInt_of_nonneg ((100 : ℝ) * 0.005) (by norm_num) (by norm_num)
  rw [f1] at c1
  obtain ⟨st, hst, _, ⟨hz1, hz2⟩, ⟨hfe, _, hal⟩, ⟨hg, _⟩, _, ⟨hn, _, hthr, hred, hfreq⟩, _, _⟩ :=
    prepareToPlay_spec (CMath.mk Real.cos Real.sin Real.exp (Real.logb 10) Real.pi)
      { threshold := 24, reduction := 100, frequency := 100,
        totalNumInputChannels := 1, totalNumOutputChannels := 1 } 100 512 0 c1
  obtain ⟨st', hst', hsr, hfa, _, _, _, hgc, hac⟩ :=
    prepareToPlay_coefficients (CMath.mk Real.cos Real.sin Real.exp (Real.logb 10) Real.pi)
      { threshold := 24, reduction := 100, frequency := 100,
        totalNumInputChannels := 1, totalNumOutputChannels := 1 } 100 512 0 c1
  have hsame : st' = st := Option.some.inj (hst'.symm.trans hst)
  rw [hsame] at hsr hfa hgc hac
  have hn1 : st.totalNumInputChannels = 1 := hn
  have hthr' : st.threshold = 24 := hthr
  have hred' : st.reduction = 100 := hred
  have hfreq' : st.frequency = 100 := hfreq
  have hfa' : st.fastAttack = 1 - Real.exp (-1 / (100 * 0.001)) := hfa
  have hac' : st.avgLevelCoeff = 1 - Real.exp (-1 / (100 * 0.5)) := hac
  have hgc' : st.gainSmoothCoeff = 1 - Real.exp (-1 / (100 * 0.003)) := hgc
  obtain ⟨⟨b1, b2, b3⟩, b4, b5⟩ := coefficients_at_100
  rw [← hfa'] at b1
  rw [← hac'] at b2 b3
  rw [← hgc'] at b4 b5
  have hin : (List.range st.totalNumInputChannels).foldl
      (fun acc channel => acc + (blockSetup
            (CMath.mk Real.cos Real.sin Real.exp (Real.logb 10) Real.pi) st ⟨1, [[1]]⟩).2.getSample channel 0) 0 /
        (st.totalNumInputChannels : ℝ) = 1 := by
    have hb := (blockSetup_channel
          (CMath.mk Real.cos Real.sin Real.exp (Real.logb 10) Real.pi) st ⟨1, [[1]]⟩ 0 (by rw [hn1]; exact Nat.one_pos)).1
    rw [hn1]
    simp only [show List.range 1 = [0] from rfl, List.foldl_cons, List.foldl_nil,
      AudioBuffer.getSample, hb]
    norm_num
  have hout : ((calculateBiquadLPF
        (CMath.mk Real.cos Real.sin Real.exp (Real.logb 10) Real.pi) st.currentSampleRate st.detectionLPF
      (st.frequency * 1.5) 0.5).process 1).1 = 1 := by
    rw [hsr, hfreq']
    exact detection_unit_response st.detectionLPF hz1 hz2
  have hfast : envelopeUpdate st.fastAttack st.fastRelease st.fastEnvelope |(1 : ℝ)| =
      st.fastAttack := by
    rw [hfe, abs_one]
    unfold envelopeUpdate
    rw [if_pos one_pos]
    ring
  have havg : avgLevelUpdate st.avgLevelCoeff st.avgLevel |(1 : ℝ)| = st.avgLevelCoeff := by
    rw [hal, abs_one]
    unfold avgLevelUpdate
    ring
  have htarget : targetGain (st.reduction / 100) (toDb
        (CMath.mk Real.cos Real.sin Real.exp (Real.logb 10) Real.pi) st.fastAttack)
      (triggerThresholdDb (toDb
            (CMath.mk Real.cos Real.sin Real.exp (Real.logb 10) Real.pi) st.avgLevelCoeff) st.threshold) = 0.05 := by
    rw [hred', hthr', show (100 : ℝ) / 100 = 1 from div_self (by norm_num)]
    exact trigger_fires_fully _ _ b1 b2 b3
  obtain ⟨ht, hc⟩ := sampleLoop_one_gain
        (CMath.mk Real.cos Real.sin Real.exp (Real.logb 10) Real.pi) st ⟨1, [[1]]⟩
  rw [hin, hout, hfast, havg, htarget] at ht
  have hneg : smoothGainStep st.gainSmoothCoeff 0.05 1 < 0 := by
    unfold smoothGainStep
    rw [if_pos (by norm_num)]
    nlinarith only [b4]
  refine ⟨st, hst, ⟨lt_of_lt_of_le (by norm_num) b4, b5⟩, hg, ht, ?_⟩
  rw [hc, ht, hg]
  exact hneg

end Undershoot

/-! ## Stability of the biquad filters -/

section Stability

/-- Roots of `z^2 - p z - r` inside the unit disc, for `(p, r)` in the stability
triangle. -/
theorem stable_roots (p r : ℝ) (h1 : 0 < 1 - p - r) (h2 : 0 < 1 + p - r) (h3 : -1 < r) :
    ∃ c1 c2 : ℂ, c1 + c2 = (p : ℂ) ∧ c1 * c2 = -(r : ℂ) ∧ ‖c1‖ < 1 ∧ ‖c2‖ < 1 := by
  rcases le_or_lt 0 (p ^ 2 + 4 * r) with hD | hD
  · have hs0 := Real.sqrt_nonneg (p ^ 2 + 4 * r)
    have hs2 := Real.sq_sqrt hD
    have hsp : Real.sqrt (p ^ 2 + 4 * r) < 2 - p := by
      by_contra hcon
      have : 2 - p ≤ Real.sqrt (p ^ 2 + 4 * r) := not_lt.mp hcon
      nlinarith
    have hsm : Real.sqrt (p ^ 2 + 4 * r) < 2 + p := by
      by_contra hcon
      have : 2 + p ≤ Real.sqrt (p ^ 2 + 4 * r) := not_lt.mp hcon
      nlinarith
    refine ⟨(((p + Real.sqrt (p ^ 2 + 4 * r)) / 2 : ℝ) : ℂ),
      (((p - Real.sqrt (p ^ 2 + 4 * r)) / 2 : ℝ) : ℂ), ?_, ?_, ?_, ?_⟩
    · rw [← Complex.ofReal_add]; congr 1; ring
    · rw [← Complex.ofReal_mul, ← Complex.ofReal_neg]; congr 1; nlinarith
    · rw [Complex.norm_real, Real.norm_eq_abs, abs_lt]; constructor <;> linarith
    · rw [Complex.norm_real, Real.norm_eq_abs, abs_lt]; constructor <;> linarith
  · have hpos : 0 ≤ -(p ^ 2 + 4 * r) := by linarith
    have hs2 := Real.sq_sqrt hpos
    have hnorm : ∀ t : ℝ, t ^ 2 = -(p ^ 2 + 4 * r) → ‖(⟨p / 2, t / 2⟩ : ℂ)‖ < 1 := by
      intro t ht
      rw [Complex.norm_eq_abs, Complex.abs_apply, Complex.normSq_mk]
      rw [show p / 2 * (p / 2) + t / 2 * (t / 2) = -r by nlinarith]
      calc Real.sqrt (-r) < Real.sqrt 1 := Real.sqrt_lt_sqrt (by nlinarith) (by linarith)
        _ = 1 := Real.sqrt_one
    obtain ⟨s, hs⟩ : ∃ s : ℝ, s ^ 2 = -(p ^ 2 + 4 * r) := ⟨_, hs2⟩
    refine ⟨⟨p / 2, s / 2⟩, ⟨p / 2, -s / 2⟩, ?_, ?_, hnorm _ hs, hnorm _ ?_⟩
    · apply Complex.ext
      · simp
      · simp; ring
    · apply Complex.ext
      · simp; nlinarith
      · simp; ring
    · rw [neg_sq]; exact hs

/-- Bounded input gives bounded output, for a filter whose recursion
`y = b0 x + (b1 - a1) z1 + (b2 - a2) z2` has its two characteristic roots `c1`, `c2`
inside the unit disc: the invariant `‖z1 - c1 z2‖ ≤ W`, `|z1| ≤ Y` is maintained. -/
theorem run_bounded (b0 p r : ℝ) (c1 c2 : ℂ) (hsum : c1 + c2 = (p : ℂ))
    (hprod : c1 * c2 = -(r : ℂ)) (hc1 : ‖c1‖ < 1) (hc2 : ‖c2‖ < 1) (B : ℝ)
    (xs : List ℝ) :
    ∀ g : BiquadFilter ℝ, g.b0 = b0 → g.b1 - g.a1 = p → g.b2 - g.a2 = r →
      ‖(g.z1 : ℂ) - c1 * (g.z2 : ℂ)‖ ≤ |b0| * B / (1 - ‖c2‖) →
      |g.z1| ≤ |b0| * B / (1 - ‖c2‖) / (1 - ‖c1‖) →
      (∀ x ∈ xs, |x| ≤ B) →
      ∀ y ∈ g.run xs, |y| ≤ |b0| * B / (1 - ‖c2‖) / (1 - ‖c1‖) := by
  have h1 : 0 < 1 - ‖c1‖ := by linarith
  have h2 : 0 < 1 - ‖c2‖ := by linarith
  have hW : |b0| * B / (1 - ‖c2‖) * (1 - ‖c2‖) = |b0| * B := div_mul_cancel₀ _ h2.ne'
  have hY : |b0| * B / (1 - ‖c2‖) / (1 - ‖c1‖) * (1 - ‖c1‖) = |b0| * B / (1 - ‖c2‖) :=
    div_mul_cancel₀ _ h1.ne'
  induction xs with
  | nil => intro g _ _ _ _ _ _ y hy; simp [BiquadFilter.run] at hy
  | cons x rest ih =>
    intro g hb hp hr hw hz hx y hy
    have hxB : |x| ≤ B := hx x (List.mem_cons_self _ _)
    have hout : (g.process x).1 = b0 * x + p * g.z1 + r * g.z2 := by
      simp only [BiquadFilter.process]
      rw [← hb, ← hp, ← hr]
      ring
    have hcomplex : (((g.process x).1 : ℝ) : ℂ) - c1 * (g.z1 : ℂ) =
        ((b0 * x : ℝ) : ℂ) + c2 * ((g.z1 : ℂ) - c1 * (g.z2 : ℂ)) := by
      rw [hout]
      push_cast
      rw [← hsum]
      have : (r : ℂ) = -(c1 * c2) := by rw [hprod]; ring
      rw [this]
      ring
    have hw' : ‖(((g.process x).1 : ℝ) : ℂ) - c1 * (g.z1 : ℂ)‖ ≤ |b0| * B / (1 - ‖c2‖) := by
      rw [hcomplex]
      calc ‖((b0 * x : ℝ) : ℂ) + c2 * ((g.z1 : ℂ) - c1 * (g.z2 : ℂ))‖
          ≤ ‖((b0 * x : ℝ) : ℂ)‖ + ‖c2 * ((g.z1 : ℂ) - c1 * (g.z2 : ℂ))‖ := norm_add_le _ _
        _ = |b0| * |x| + ‖c2‖ * ‖(g.z1 : ℂ) - c1 * (g.z2 : ℂ)‖ := by
            rw [Complex.norm_real, Real.norm_eq_abs, abs_mul, norm_mul]
        _ ≤ |b0| * B + ‖c2‖ * (|b0| * B / (1 - ‖c2‖)) := by
            apply add_le_add
            · exact mul_le_mul_of_nonneg_left hxB (abs_nonneg _)
            · exact mul_le_mul_of_nonneg_left hw (norm_nonneg _)
        _ = |b0| * B / (1 - ‖c2‖) := by
            nth_rewrite 1 [← hW]
            ring
    have hy' : |(g.process x).1| ≤ |b0| * B / (1 - ‖c2‖) / (1 - ‖c1‖) := by
      have e : (((g.process x).1 : ℝ) : ℂ) =
          ((((g.process x).1 : ℝ) : ℂ) - c1 * (g.z1 : ℂ)) + c1 * (g.z1 : ℂ) := by ring
      calc |(g.process x).1| = ‖(((g.process x).1 : ℝ) : ℂ)‖ := by
            rw [Complex.norm_real, Real.norm_eq_abs]
        _ ≤ ‖(((g.process x).1 : ℝ) : ℂ) - c1 * (g.z1 : ℂ)‖ + ‖c1 * (g.z1 : ℂ)‖ := by
            nth_rewrite 1 [e]
            exact norm_add_le _ _
        _ = ‖(((g.process x).1 : ℝ) : ℂ) - c1 * (g.z1 : ℂ)‖ + ‖c1‖ * |g.z1| := by
            rw [norm_mul, Complex.norm_real, Real.norm_eq_abs]
        _ ≤ |b0| * B / (1 - ‖c2‖) + ‖c1‖ * (|b0| * B / (1 - ‖c2‖) / (1 - ‖c1‖)) := by
            apply add_le_add hw'
            exact mul_le_mul_of_nonneg_left hz (norm_nonneg _)
        _ = |b0| * B / (1 - ‖c2‖) / (1 - ‖c1‖) := by
            nth_rewrite 1 [← hY]
            ring
    simp only [BiquadFilter.run, List.mem_cons] at hy
    rcases hy with hy | hy
    · rw [hy]; exact hy'
    · exact ih (g.process x).2 hb hp hr hw' hy'
        (fun x' hx' => hx x' (List.mem_cons_of_mem _ hx')) y hy

theorem trig_below_nyquist (sampleRate cutoffHz : ℝ) (hsr : 0 < sampleRate)
    (hc0 : 0 < cutoffHz) (hc1 : cutoffHz < sampleRate / 2) :
    0 < Real.sin (2 * Real.pi * cutoffHz / sampleRate) ∧
      -1 < Real.cos (2 * Real.pi * cutoffHz / sampleRate) ∧
      Real.cos (2 * Real.pi * cutoffHz / sampleRate) < 1 := by
  have hpi := Real.pi_pos
  have hw0 : 0 < 2 * Real.pi * cutoffHz / sampleRate := by positivity
  have hw1 : 2 * Real.pi * cutoffHz / sampleRate < Real.pi := by
    rw [div_lt_iff₀ hsr]
    nlinarith
  have hsin := Real.sin_pos_of_pos_of_lt_pi hw0 hw1
  have hsq := Real.sin_sq_add_cos_sq (2 * Real.pi * cutoffHz / sampleRate)
  refine ⟨hsin, ?_, ?_⟩
  · by_contra hcon
    nlinarith [not_lt.mp hcon]
  · by_contra hcon
    nlinarith [not_lt.mp hcon]

theorem lpf_triangle (c al : ℝ) (hc0 : -1 < c) (hc1 : c < 1) (hal : 0 < al) :
    0 < 1 - ((1 - c) / (1 + al) - -2 * c / (1 + al)) -
        ((1 - c) / 2 / (1 + al) - (1 - al) / (1 + al)) ∧
      0 < 1 + ((1 - c) / (1 + al) - -2 * c / (1 + al)) -
        ((1 - c) / 2 / (1 + al) - (1 - al) / (1 + al)) ∧
      -1 < (1 - c) / 2 / (1 + al) - (1 - al) / (1 + al) := by
  have ha : 0 < 1 + al := by linarith
  refine ⟨?_, ?_, ?_⟩
  · rw [show 1 - ((1 - c) / (1 + al) - -2 * c / (1 + al)) -
        ((1 - c) / 2 / (1 + al) - (1 - al) / (1 + al)) = (1 - c) / 2 / (1 + al) by
      field_simp; ring]
    exact div_pos (by linarith) ha
  · rw [show 1 + ((1 - c) / (1 + al) - -2 * c / (1 + al)) -
        ((1 - c) / 2 / (1 + al) - (1 - al) / (1 + al)) = (1 + 3 * (1 + c) / 2) / (1 + al) by
      field_simp; ring]
    exact div_pos (by linarith) ha
  · rw [show (1 - c) / 2 / (1 + al) - (1 - al) / (1 + al) =
        ((1 - c) / 2 - (1 - al)) / (1 + al) by field_simp; ring]
    rw [lt_div_iff₀ ha]
    linarith

theorem hpf_triangle (c al : ℝ) (hc0 : -1 < c) (hc1 : c < 1) (hal : 0 < al) :
    0 < 1 - (-(1 + c) / (1 + al) - -2 * c / (1 + al)) -
        ((1 + c) / 2 / (1 + al) - (1 - al) / (1 + al)) ∧
      0 < 1 + (-(1 + c) / (1 + al) - -2 * c / (1 + al)) -
        ((1 + c) / 2 / (1 + al) - (1 - al) / (1 + al)) ∧
      -1 < (1 + c) / 2 / (1 + al) - (1 - al) / (1 + al) := by
  have ha : 0 < 1 + al := by linarith
  refine ⟨?_, ?_, ?_⟩
  · rw [show 1 - (-(1 + c) / (1 + al) - -2 * c / (1 + al)) -
        ((1 + c) / 2 / (1 + al) - (1 - al) / (1 + al)) = (1 + 3 * (1 - c) / 2) / (1 + al) by
      field_simp; ring]
    exact div_pos (by linarith) ha
  · rw [show 1 + (-(1 + c) / (1 + al) - -2 * c / (1 + al)) -
        ((1 + c) / 2 / (1 + al) - (1 - al) / (1 + al)) = (1 + c) / 2 / (1 + al) by
      field_simp; ring]
    exact div_pos (by linarith) ha
  · rw [show (1 + c) / 2 / (1 + al) - (1 - al) / (1 + al) =
        ((1 + c) / 2 - (1 - al)) / (1 + al) by field_simp; ring]
    rw [lt_div_iff₀ ha]
    linarith

/-- A filter at rest whose recursion coefficients lie in the stability triangle maps
inputs bounded by `B` to outputs bounded by a constant. -/
theorem stable_of_triangle (g : BiquadFilter ℝ) (hz1 : g.z1 = 0) (hz2 : g.z2 = 0)
    (h1 : 0 < 1 - (g.b1 - g.a1) - (g.b2 - g.a2)) (h2 : 0 < 1 + (g.b1 - g.a1) - (g.b2 - g.a2))
    (h3 : -1 < g.b2 - g.a2) (B : ℝ) (hB : 0 ≤ B) :
    ∃ C, ∀ xs : List ℝ, (∀ x ∈ xs, |x| ≤ B) → ∀ y ∈ g.run xs, |y| ≤ C := by
  obtain ⟨c1, c2, hsum, hprod, hc1, hc2⟩ := stable_roots _ _ h1 h2 h3
  have hW : 0 ≤ |g.b0| * B / (1 - ‖c2‖) :=
    div_nonneg (mul_nonneg (abs_nonneg _) hB) (by linarith)
  have hY : 0 ≤ |g.b0| * B / (1 - ‖c2‖) / (1 - ‖c1‖) := div_nonneg hW (by linarith)
  refine ⟨|g.b0| * B / (1 - ‖c2‖) / (1 - ‖c1‖), fun xs hxs => ?_⟩
  apply run_bounded g.b0 _ _ c1 c2 hsum hprod hc1 hc2 B xs g rfl rfl rfl _ _ hxs
  · rw [hz1, hz2]
    simpa using hW
  · rw [hz1]
    simpa using hY

/-- C5: for every sample rate `> 0`, every cutoff strictly between 0 and half the
sample rate and every `Q > 0`, no divisor in `calculateBiquadLPF` and
`calculateBiquadHPF` is zero (the sample rate, `2 Q` and `a0 = 1 + sin(w0) / (2 Q) > 0`),
and `BiquadFilter::process` run with either set of coefficients from zero state is
stable: for every bound `B` there is a constant `C` such that every input sequence
bounded in magnitude by `B` gives outputs bounded in magnitude by `C`. -/
theorem biquad_coefficients_stable (sampleRate cutoffHz q B : ℝ) (f : BiquadFilter ℝ)
    (hsr : 0 < sampleRate) (hc0 : 0 < cutoffHz) (hc1 : cutoffHz < sampleRate / 2)
    (hq : 0 < q) (hz1 : f.z1 = 0) (hz2 : f.z2 = 0) (hB : 0 ≤ B) :
    (sampleRate ≠ 0 ∧ 2 * q ≠ 0 ∧
      0 < 1 + Real.sin (2 * Real.pi * cutoffHz / sampleRate) / (2 * q)) ∧
    (∃ C, ∀ xs : List ℝ, (∀ x ∈ xs, |x| ≤ B) →
      ∀ y ∈ (calculateBiquadLPF
            (CMath.mk Real.cos Real.sin Real.exp (Real.logb 10) Real.pi) sampleRate f cutoffHz q).run xs, |y| ≤ C) ∧
    (∃ C, ∀ xs : List ℝ, (∀ x ∈ xs, |x| ≤ B) →
      ∀ y ∈ (calculateBiquadHPF
            (CMath.mk Real.cos Real.sin Real.exp (Real.logb 10) Real.pi) sampleRate f cutoffHz q).run xs, |y| ≤ C) := by
  obtain ⟨hsin, hcos0, hcos1⟩ := trig_below_nyquist sampleRate cutoffHz hsr hc0 hc1
  have hal : 0 < Real.sin (2 * Real.pi * cutoffHz / sampleRate) / (2 * q) :=
    div_pos hsin (by linarith)
  refine ⟨⟨hsr.ne', by linarith, by linarith⟩, ?_, ?_⟩
  · obtain ⟨t1, t2, t3⟩ := lpf_triangle _ _ hcos0 hcos1 hal
    exact stable_of_triangle (calculateBiquadLPF
          (CMath.mk Real.cos Real.sin Real.exp (Real.logb 10) Real.pi) sampleRate f cutoffHz q) hz1 hz2 t1 t2 t3
      B hB
  · obtain ⟨t1, t2, t3⟩ := hpf_triangle _ _ hcos0 hcos1 hal
    exact stable_of_triangle (calculateBiquadHPF
          (CMath.mk Real.cos Real.sin Real.exp (Real.logb 10) Real.pi) sampleRate f cutoffHz q) hz1 hz2 t1 t2 t3
      B hB

/-- C5 at a concrete input: 44100 Hz, cutoff 300 Hz, `Q = 1/2`, inputs bounded by 1. -/
theorem biquad_coefficients_stable_witness :
    ((0 : ℝ) < 44100 ∧ (0 : ℝ) < 300 ∧ (300 : ℝ) < 44100 / 2 ∧ (0 : ℝ) < 1 / 2) ∧
      ∃ C, ∀ xs : List ℝ, (∀ x ∈ xs, |x| ≤ 1) →
        ∀ y ∈ (calculateBiquadLPF
              (CMath.mk Real.cos Real.sin Real.exp (Real.logb 10) Real.pi) 44100 {} 300 (1 / 2)).run xs, |y| ≤ C :=
  ⟨by norm_num,
    (biquad_coefficients_stable 44100 300 (1 / 2) 1 {} (by norm_num) (by norm_num)
      (by norm_num) (by norm_num) rfl rfl (by norm_num)).2.1⟩

end Stability

/-! ## Index safety of the delay line -/

section IndexSafety

variable {α : Type} [LinearOrderedField α]

theorem vecWrite_length {β : Type} (row : List β) (i : Int) (x : β) :
    (vecWrite row i x).length = row.length := by
  unfold vecWrite
  split_ifs
  · exact List.length_set _ _ _
  · rfl

theorem cursorInv_preserved (M : CMath α) (L : Int) (n : Nat) :
    Preserved M (fun _ _ => True) (CursorInv L n) where
  params := fun _ _ => trivial
  setup := fun _ _ h => h
  step := by
    intro thresholdDb reductionAmount sb sample _ h
    obtain ⟨⟨hw0, hw1⟩, hL, hn, hrows⟩ := h
    obtain ⟨hw, hL', hn', _, _, hdl⟩ :=
      processSample_spec M thresholdDb reductionAmount sb sample
    unfold MAX_LOOKAHEAD_SAMPLES at hw hw1
    refine ⟨?_, hL'.trans hL, hn'.trans hn, ?_⟩
    · rw [hw, Int.tmod_eq_emod (by omega) (by norm_num)]
      unfold MAX_LOOKAHEAD_SAMPLES
      omega
    · intro ch hch
      rw [hdl ch, if_pos (by rw [hn]; exact hch), vecWrite_length]
      exact hrows ch hch
  meters := fun _ _ _ _ h => h

/-- C11: for a look-ahead between 0 and `MAX_LOOKAHEAD_SAMPLES = 512`, starting from
write cursor 0 with a ring of 512 slots for each input channel, before every sample of
every block the write cursor lies in `[0, 512)`, the read position is
`(delayWritePos - lookaheadSamples + 512) mod 512` and lies in `[0, 512)`, processing
the sample advances the cursor to `(delayWritePos + 1) mod 512` whatever the number of
channels, and for every input channel both the read position and the write cursor index
a slot of that channel's ring. -/
theorem delay_index_safety (M : CMath α) (st : Processor α)
    (buffers : List (AudioBuffer α)) (buffer : AudioBuffer α) (k ch : Nat)
    (hL0 : 0 ≤ st.lookaheadSamples) (hL1 : st.lookaheadSamples ≤ MAX_LOOKAHEAD_SAMPLES)
    (hw : st.delayWritePos = 0)
    (hrows : ∀ c, c < st.totalNumInputChannels → (st.delayBuffer.getD c []).length = 512)
    (hch : ch < st.totalNumInputChannels) :
    MAX_LOOKAHEAD_SAMPLES = 512 ∧
    (0 ≤ (sampleLoop M (processBlocks M st buffers).1 buffer k).1.delayWritePos ∧
      (sampleLoop M (processBlocks M st buffers).1 buffer k).1.delayWritePos < 512) ∧
    (delayReadPos (sampleLoop M (processBlocks M st buffers).1 buffer k).1.delayWritePos
        (sampleLoop M (processBlocks M st buffers).1 buffer k).1.lookaheadSamples =
      ((sampleLoop M (processBlocks M st buffers).1 buffer k).1.delayWritePos -
        (sampleLoop M (processBlocks M st buffers).1 buffer k).1.lookaheadSamples + 512) % 512 ∧
      0 ≤ delayReadPos (sampleLoop M (processBlocks M st buffers).1 buffer k).1.delayWritePos
        (sampleLoop M (processBlocks M st buffers).1 buffer k).1.lookaheadSamples ∧
      delayReadPos (sampleLoop M (processBlocks M st buffers).1 buffer k).1.delayWritePos
        (sampleLoop M (processBlocks M st buffers).1 buffer k).1.lookaheadSamples < 512) ∧
    (sampleLoop M (processBlocks M st buffers).1 buffer (k + 1)).1.delayWritePos =
      ((sampleLoop M (processBlocks M st buffers).1 buffer k).1.delayWritePos + 1) % 512 ∧
    ((delayReadPos (sampleLoop M (processBlocks M st buffers).1 buffer k).1.delayWritePos
        (sampleLoop M (processBlocks M st buffers).1 buffer k).1.lookaheadSamples).toNat <
        ((sampleLoop M (processBlocks M st buffers).1 buffer k).1.delayBuffer.getD ch []).length ∧
      ((sampleLoop M (processBlocks M st buffers).1 buffer k).1.delayWritePos).toNat <
        ((sampleLoop M (processBlocks M st buffers).1 buffer k).1.delayBuffer.getD ch []).length) := by
  have hP := cursorInv_preserved M st.lookaheadSamples st.totalNumInputChannels
  have h0 : CursorInv st.lookaheadSamples st.totalNumInputChannels st :=
    ⟨⟨by rw [hw], by rw [hw]; decide⟩, rfl, rfl, hrows⟩
  obtain ⟨⟨hw0, hw1⟩, hL, _, hr⟩ :=
    hP.sampleLoop _ buffer (hP.processBlocks buffers st h0) k
  have hstep := (processSample_spec M (processBlocks M st buffers).1.threshold
    ((processBlocks M st buffers).1.reduction / 100)
    (sampleLoop M (processBlocks M st buffers).1 buffer k) k).1
  unfold MAX_LOOKAHEAD_SAMPLES at hw1 hL1 hstep
  have hread : delayReadPos (sampleLoop M (processBlocks M st buffers).1 buffer k).1.delayWritePos
      (sampleLoop M (processBlocks M st buffers).1 buffer k).1.lookaheadSamples =
      ((sampleLoop M (processBlocks M st buffers).1 buffer k).1.delayWritePos -
        (sampleLoop M (processBlocks M st buffers).1 buffer k).1.lookaheadSamples + 512) % 512 := by
    unfold delayReadPos MAX_LOOKAHEAD_SAMPLES
    rw [hL]
    exact Int.tmod_eq_emod (by omega) (by norm_num)
  refine ⟨rfl, ⟨hw0, hw1⟩, ⟨hread, ?_, ?_⟩, ?_, ?_, ?_⟩
  · rw [hread]; omega
  · rw [hread]; omega
  · rw [sampleLoop_succ, hstep]
    exact Int.tmod_eq_emod (by omega) (by norm_num)
  · rw [hr ch hch, hread]; omega
  · rw [hr ch hch]; omega

/-- C11 at a concrete input: a mono processor with look-ahead 220, write cursor 0 and a
ring of 512 slots, before the first sample of a one-sample block. -/
theorem delay_index_safety_witness :
    ((0 : Int) ≤ 220 ∧ (220 : Int) ≤ MAX_LOOKAHEAD_SAMPLES) ∧
      (0 ≤ (sampleLoop
          (CMath.mk Real.cos Real.sin Real.exp (Real.logb 10) Real.pi)
          (processBlocks
            (CMath.mk Real.cos Real.sin Real.exp (Real.logb 10) Real.pi)
            { lookaheadSamples := 220, delayBuffer := [List.replicate 512 0],
              totalNumInputChannels := 1, totalNumOutputChannels := 1 } []).1
          ⟨1, [[1]]⟩ 0).1.delayWritePos ∧
        (sampleLoop
          (CMath.mk Real.cos Real.sin Real.exp (Real.logb 10) Real.pi)
          (processBlocks
            (CMath.mk Real.cos Real.sin Real.exp (Real.logb 10) Real.pi)
            { lookaheadSamples := 220, delayBuffer := [List.replicate 512 0],
              totalNumInputChannels := 1, totalNumOutputChannels := 1 } []).1
          ⟨1, [[1]]⟩ 0).1.delayWritePos < 512) :=
  ⟨by decide,
    (delay_index_safety
      (CMath.mk Real.cos Real.sin Real.exp (Real.logb 10) Real.pi)
      { lookaheadSamples := 220, delayBuffer := [List.replicate 512 0],
        totalNumInputChannels := 1, totalNumOutputChannels := 1 } [] ⟨1, [[1]]⟩ 0 0
      (by decide) (by decide) rfl
      (by
        intro c hc
        have hc0 : c = 0 := Nat.lt_one_iff.1 hc
        rw [hc0]
        exact List.length_replicate _ _)
      Nat.one_pos).2.1⟩

end IndexSafety

/-! ## The applied gain -/

section Blend

variable {α : Type} [LinearOrderedField α]

theorem blendGain_bounds (g : α) (h0 : 0.05 ≤ g) (h1 : g ≤ 1) :
    0 < blendGain g ∧ blendGain g ≤ g ∧ (blendGain g = 1 ↔ g = 1) := by
  have hg : 0 < g := lt_of_lt_of_le (by norm_num) h0
  unfold blendGain
  simp only
  refine ⟨by nlinarith [mul_pos hg hg], by nlinarith [mul_nonneg hg.le (sub_nonneg.2 h1)], ?_⟩
  constructor
  · intro h
    have : (g - 1) * (g + 2) = 0 := by nlinarith
    rcases mul_eq_zero.1 this with h' | h'
    · linarith
    · linarith
  · intro h
    rw [h]; norm_num

theorem processChannelFlushed_output (st : Processor α) (sample : Nat)
    (bd : List (List α) × List (List α)) (channel : Nat)
    (hch : channel < bd.1.length) (hs : sample < (bd.1.getD channel []).length) :
    ((processChannelFlushed st sample bd channel).1.getD channel []).getD sample 0 =
      flushDenormal
        (vecRead (bd.2.getD channel []) (delayReadPos st.delayWritePos st.lookaheadSamples) *
          blendGain st.currentGainReduction) := by
  unfold processChannelFlushed
  simp only
  rw [getD_set_row, if_pos ⟨rfl, hch⟩, getD_set_row, if_pos ⟨rfl, hs⟩]

/-- C12 (amended): for `currentGainReduction = g` in `[0.05, 1]` the gain applied in
`processBlock`, `smoothGain = g * g * 0.5 + g * 0.5`, satisfies
`0 < smoothGain ≤ g ≤ 1`, with `smoothGain = 1` exactly when `g = 1`; the sample the
channel loop writes to the buffer is the delayed sample times `smoothGain`, so its
magnitude is at most that of the delayed sample, also after the flush to zero of
`ScopedNoDenormals`; the flushed output sample is non-zero when the magnitude of the
product is at least `FLT_MIN = 2^-126` and is 0 when it is below. -/
theorem output_never_amplified (st : Processor α) (sample : Nat)
    (bd : List (List α) × List (List α)) (channel : Nat)
    (h0 : 0.05 ≤ st.currentGainReduction) (h1 : st.currentGainReduction ≤ 1)
    (hch : channel < bd.1.length) (hs : sample < (bd.1.getD channel []).length) :
    (0 < blendGain st.currentGainReduction ∧
      blendGain st.currentGainReduction ≤ st.currentGainReduction ∧
      st.currentGainReduction ≤ 1 ∧
      (blendGain st.currentGainReduction = 1 ↔ st.currentGainReduction = 1)) ∧
    ((processChannel st sample bd channel).1.getD channel []).getD sample 0 =
      vecRead (bd.2.getD channel []) (delayReadPos st.delayWritePos st.lookaheadSamples) *
        blendGain st.currentGainReduction ∧
    |((processChannel st sample bd channel).1.getD channel []).getD sample 0| ≤
      |vecRead (bd.2.getD channel []) (delayReadPos st.delayWritePos st.lookaheadSamples)| ∧
    |((processChannelFlushed st sample bd channel).1.getD channel []).getD sample 0| ≤
      |vecRead (bd.2.getD channel []) (delayReadPos st.delayWritePos st.lookaheadSamples)| ∧
    (FLT_MIN ≤
        |vecRead (bd.2.getD channel []) (delayReadPos st.delayWritePos st.lookaheadSamples) *
          blendGain st.currentGainReduction| →
      ((processChannelFlushed st sample bd channel).1.getD channel []).getD sample 0 ≠ 0) ∧
    (|vecRead (bd.2.getD channel []) (delayReadPos st.delayWritePos st.lookaheadSamples) *
          blendGain st.currentGainReduction| < FLT_MIN →
      ((processChannelFlushed st sample bd channel).1.getD channel []).getD sample 0 = 0) := by
  obtain ⟨b1, b2, b3⟩ := blendGain_bounds st.currentGainReduction h0 h1
  have hout : ((processChannel st sample bd channel).1.getD channel []).getD sample 0 =
      vecRead (bd.2.getD channel []) (delayReadPos st.delayWritePos st.lookaheadSamples) *
        blendGain st.currentGainReduction := by
    unfold processChannel
    simp only
    rw [getD_set_row, if_pos ⟨rfl, hch⟩, getD_set_row, if_pos ⟨rfl, hs⟩]
  have hfl := processChannelFlushed_output st sample bd channel hch hs
  have hmag : ∀ d : α, |d * blendGain st.currentGainReduction| ≤ |d| := by
    intro d
    rw [abs_mul, abs_of_pos b1]
    exact mul_le_of_le_one_right (abs_nonneg _) (le_trans b2 h1)
  have hmin : (0 : α) < FLT_MIN := by
    unfold FLT_MIN
    positivity
  refine ⟨⟨b1, b2, h1, b3⟩, hout, ?_, ?_, ?_, ?_⟩
  · rw [hout]
    exact hmag _
  · rw [hfl]
    unfold flushDenormal
    split_ifs
    · rw [abs_zero]; exact abs_nonneg _
    · exact hmag _
  · intro hbig
    rw [hfl]
    unfold flushDenormal
    rw [if_neg (not_lt.mpr hbig)]
    intro hzero
    rw [hzero, abs_zero] at hbig
    exact absurd hmin (not_lt.mpr hbig)
  · intro hsmall
    rw [hfl]
    unfold flushDenormal
    rw [if_pos hsmall]

/-- C12 (amended) at a concrete input: gain 1/2, the value 3 in slot 0 of the delay row,
write cursor and look-ahead 0, one channel holding one sample. -/
theorem output_never_amplified_witness :
    ((0.05 : ℚ) ≤ 1 / 2 ∧ (1 / 2 : ℚ) ≤ 1) ∧
      |((processChannelFlushed ({ currentGainReduction := 1 / 2 } : Processor ℚ) 0
          ([[1]], [[3]]) 0).1.getD 0 []).getD 0 0| ≤
        |vecRead ((([[1]], [[3]]) : List (List ℚ) × List (List ℚ)).2.getD 0 [])
          (delayReadPos ({ currentGainReduction := 1 / 2 } : Processor ℚ).delayWritePos
            ({ currentGainReduction := 1 / 2 } : Processor ℚ).lookaheadSamples)| :=
  ⟨by norm_num,
    (output_never_amplified ({ currentGainReduction := 1 / 2 } : Processor ℚ) 0
      ([[1]], [[3]]) 0
      (show (0.05 : ℚ) ≤ 1 / 2 by norm_num) (show (1 / 2 : ℚ) ≤ 1 by norm_num)
      Nat.one_pos Nat.one_pos).2.2.2.1⟩

/-- C12, counterexample to the claim as stated: with `currentGainReduction = 1/2`
(inside `[0.05, 1]`) the applied gain is `3/8`; the delayed sample read from the delay
line is the smallest normal binary32 number `2^-126`, which is not 0, but its product
with the gain, `3 * 2^-129`, is below the normal range and is flushed to 0 under
`ScopedNoDenormals`: the sample written to the buffer is 0. -/
theorem tiny_sample_flushed_to_zero :
    ((0.05 : ℚ) ≤ 1 / 2 ∧ (1 / 2 : ℚ) ≤ 1) ∧
      vecRead ((([[1]], [[FLT_MIN]]) : List (List ℚ) × List (List ℚ)).2.getD 0 [])
        (delayReadPos ({ currentGainReduction := 1 / 2 } : Processor ℚ).delayWritePos
          ({ currentGainReduction := 1 / 2 } : Processor ℚ).lookaheadSamples) = FLT_MIN ∧
      (FLT_MIN : ℚ) ≠ 0 ∧
      blendGain (1 / 2 : ℚ) = 3 / 8 ∧
      (FLT_MIN : ℚ) * blendGain (1 / 2) = 3 / 2 ^ 129 ∧
      ((processChannelFlushed ({ currentGainReduction := 1 / 2 } : Processor ℚ) 0
        ([[1]], [[FLT_MIN]]) 0).1.getD 0 []).getD 0 0 = 0 := by
  have hb : blendGain (1 / 2 : ℚ) = 3 / 8 := by
    unfold blendGain
    norm_num
  have hread : vecRead ((([[1]], [[FLT_MIN]]) : List (List ℚ) × List (List ℚ)).2.getD 0 [])
      (delayReadPos ({ currentGainReduction := 1 / 2 } : Processor ℚ).delayWritePos
        ({ currentGainReduction := 1 / 2 } : Processor ℚ).lookaheadSamples) = FLT_MIN := by
    have hpos : delayReadPos ({ currentGainReduction := 1 / 2 } : Processor ℚ).delayWritePos
        ({ currentGainReduction := 1 / 2 } : Processor ℚ).lookaheadSamples = 0 := by decide
    rw [hpos]
    rfl
  have hprod : (FLT_MIN : ℚ) * (3 / 8) = 3 / 2 ^ 129 := by
    unfold FLT_MIN
    norm_num
  refine ⟨by norm_num, hread, by unfold FLT_MIN; positivity, hb, by rw [hb]; exact hprod, ?_⟩
  rw [processChannelFlushed_output ({ currentGainReduction := 1 / 2 } : Processor ℚ) 0
    ([[1]], [[FLT_MIN]]) 0 Nat.one_pos Nat.one_pos, hread, hb, hprod]
  unfold flushDenormal
  rw [if_pos]
  unfold FLT_MIN
  rw [abs_of_pos (by positivity)]
  norm_num

end Blend

/-! ## Unity gain of the detection low-pass at DC -/

section DCGain

variable {α : Type} [LinearOrderedField α]

end DCGain

/-! ## Attack slower than release at a low sample rate -/

section SlowAttack

theorem gainAfter_attack_overshoot {α : Type} [LinearOrderedField α] (c : α)
    (h0 : 1 / 2 ≤ c) (h1 : c ≤ 1) (n : Nat) :
    gainAfter c 0.5 (n + 1) 1 = 0.5 - (c - 0.5) * (1 - 0.3 * c) ^ n := by
  have hstep : smoothGainStep c 0.5 1 = 1 - c := by
    unfold smoothGainStep
    rw [if_pos (by norm_num)]
    ring
  rw [gainAfter, hstep, gainAfter_release c 0.5 h1 n (1 - c) (by norm_num; linarith)]
  ring

theorem gainSmoothCoeff_at_100 :
    1 - (3 / 4 : ℝ) ^ 10 ≤ 1 - Real.exp (-1 / (100 * 0.003)) ∧
      1 - Real.exp (-1 / (100 * 0.003)) < 1 := by
  have h3 : Real.exp (-(1 / 3)) ≤ 3 / 4 := by
    have := exp_neg_le_inv (1 / 3) (by norm_num)
    norm_num at this ⊢
    exact this
  have hpow : Real.exp (-1 / (100 * 0.003)) = Real.exp (-(1 / 3)) ^ 10 := by
    rw [← Real.exp_nat_mul]
    congr 1
    norm_num
  have hle : Real.exp (-(1 / 3)) ^ 10 ≤ (3 / 4 : ℝ) ^ 10 :=
    pow_le_pow_left₀ (Real.exp_pos _).le h3 10
  have hpos := Real.exp_pos (-1 / (100 * 0.003))
  constructor
  · rw [hpow]; linarith
  · linarith

/-- The settle times for a smoothing coefficient between `1 - (3/4)^10` and 1: the
release is within 1% after 12 steps, the attack is not within 1% before step 14. -/
theorem settle_times_large_coeff (c : ℝ) (h0 : 1 - (3 / 4 : ℝ) ^ 10 ≤ c) (h1 : c < 1) :
    withinOnePercent (1 : ℝ) (gainAfter c 1 12 0.5) ∧
      (∀ m, m < 14 → ¬ withinOnePercent (0.5 : ℝ) (gainAfter c 0.5 m 1)) ∧
      ¬ ∃ Na Nr : Nat, IsSettleTime c 0.5 1 Na ∧ IsSettleTime c 1 0.5 Nr ∧ Na < Nr := by
  have hc : (0.9436 : ℝ) ≤ c := le_trans (by norm_num) h0
  have hb0 : (0.7 : ℝ) < 1 - 0.3 * c := by norm_num; linarith
  have hb1 : 1 - 0.3 * c ≤ 0.71692 := by norm_num; linarith
  have hbpos : (0 : ℝ) ≤ 1 - 0.3 * c := by linarith
  have hrel : withinOnePercent (1 : ℝ) (gainAfter c 1 12 0.5) := by
    rw [settle_release_iff c h1.le 12]
    calc (1 - 0.3 * c) ^ 12 ≤ (0.71692 : ℝ) ^ 12 := pow_le_pow_left₀ hbpos hb1 12
      _ ≤ 0.02 := by norm_num
  have hatt : ∀ m, m < 14 → ¬ withinOnePercent (0.5 : ℝ) (gainAfter c 0.5 m 1) := by
    intro m hm
    rcases Nat.eq_zero_or_pos m with hm0 | hm0
    · rw [hm0]
      norm_num [withinOnePercent, gainAfter, abs_le]
    · obtain ⟨n, rfl⟩ : ∃ n, m = n + 1 := ⟨m - 1, by omega⟩
      rw [withinOnePercent, gainAfter_attack_overshoot c (by linarith) h1.le n, abs_le]
      intro hcon
      have hpow : (0.7 : ℝ) ^ 12 ≤ (1 - 0.3 * c) ^ n := by
        calc (0.7 : ℝ) ^ 12 ≤ (0.7 : ℝ) ^ n :=
              pow_le_pow_of_le_one (by norm_num) (by norm_num) (by omega)
          _ ≤ (1 - 0.3 * c) ^ n := pow_le_pow_left₀ (by norm_num) hb0.le n
      have h12 : (0.0138 : ℝ) ≤ (0.7 : ℝ) ^ 12 := by norm_num
      have hprod : (0.4436 : ℝ) * 0.0138 ≤ (c - 0.5) * (1 - 0.3 * c) ^ n :=
        mul_le_mul (by linarith) (le_trans h12 hpow) (by norm_num) (by linarith)
      norm_num at hcon hprod
      linarith [hcon.1]
  refine ⟨hrel, hatt, ?_⟩
  rintro ⟨Na, Nr, ha, hr, hlt⟩
  have hNr : Nr ≤ 12 := by
    by_contra h
    exact hr.2 12 (by omega) hrel
  have hNa : 14 ≤ Na := by
    by_contra h
    exact hatt Na (by omega) ha.1
  omega

/-- C4, the failing input: a processor configured at 100 Hz gets
`gainSmoothCoeff = 1 - exp(-10/3)` (about 0.964, inside `(0, 1]`). With that
coefficient the first attack step overshoots the target 0.5 (the gain drops from 1 to
about 0.036) and the gain then returns at the release rate: started at 0.5 with the
target held at 1.0 the gain is within 1% of 1.0 after 12 steps, while started at 1.0 with
the target held at 0.5 it is not within 1% of 0.5 after any number of steps below 14. So
the least number of attack steps is not smaller than the least number of release steps. -/
theorem attack_slower_at_100_hz :
    ∃ st, prepareToPlay (CMath.mk Real.cos Real.sin Real.exp (Real.logb 10) Real.pi)
        { totalNumInputChannels := 1, totalNumOutputChannels := 1 } 100 512 = some st ∧
      (0 < st.gainSmoothCoeff ∧ st.gainSmoothCoeff ≤ 1) ∧
      withinOnePercent (1 : ℝ) (gainAfter st.gainSmoothCoeff 1 12 0.5) ∧
      (∀ m, m < 14 → ¬ withinOnePercent (0.5 : ℝ) (gainAfter st.gainSmoothCoeff 0.5 m 1)) ∧
      ¬ ∃ Na Nr : Nat, IsSettleTime st.gainSmoothCoeff 0.5 1 Na ∧
        IsSettleTime st.gainSmoothCoeff 1 0.5 Nr ∧ Na < Nr := by
  have f1 : ⌊(100 : ℝ) * 0.005⌋ = 0 := by rw [Int.floor_eq_iff]; norm_num
  have c1 := staticCastInt_of_nonneg ((100 : ℝ) * 0.005) (by norm_num) (by norm_num)
  rw [f1] at c1
  obtain ⟨st, hst, _, _, _, _, _, hgc, _⟩ :=
    prepareToPlay_coefficients (CMath.mk Real.cos Real.sin Real.exp (Real.logb 10) Real.pi)
      { totalNumInputChannels := 1, totalNumOutputChannels := 1 } 100 512 0 c1
  have hgc' : st.gainSmoothCoeff = 1 - Real.exp (-1 / (100 * 0.003)) := hgc
  obtain ⟨b0, b1⟩ := gainSmoothCoeff_at_100
  rw [← hgc'] at b0 b1
  obtain ⟨h1, h2, h3⟩ := settle_times_large_coeff st.gainSmoothCoeff b0 b1
  exact ⟨st, hst, ⟨lt_of_lt_of_le (by norm_num) b0, b1.le⟩, h1, h2, h3⟩

end SlowAttack

end PlosiveRemover
